import Mathlib

/-!
Verification development for the `tuple-store` repository: an in-memory,
path-addressable hierarchical data container (`CoreTupleStore`), a journaling
and transaction decorator (`JournaledTupleStore`), and a change-notification
decorator (`ObservableTupleStore`).

The TypeScript sources are shallowly embedded here.  JavaScript values stored
in the tree are modelled by the inductive `Value`: scalars are opaque
(prototype-chain properties of primitives and strings are not modelled, per
the spec's data model, which treats scalars as opaque values), JavaScript
objects are modelled as ordered association lists with unique keys (insertion
order preserved, first occurrence is the binding), and the JavaScript value
`undefined` is modelled explicitly by `Value.vUndef`, since the code both
returns it as an absent-value marker and can store it.
-/

namespace TupleStore

/-- A JavaScript value as stored in the tuple store tree.  Object fields are
an ordered association list (JS objects preserve insertion order). -/
inductive Value where
  | vUndef : Value
  | vNull : Value
  | vBool (b : Bool) : Value
  | vNum (n : Int) : Value
  | vStr (s : String) : Value
  | vObj (fields : List (String × Value)) : Value

/-- True for values of JavaScript `typeof` "object" other than `null`
(the condition `current[key] !== null && typeof current[key] === "object"`
used by `setNestedValue`). -/
def Value.isObjLike : Value → Bool
  | .vObj _ => true
  | _ => false

/-- First binding for key `k` in a JS object's field list (`obj[k]`
for an own property). -/
def fieldsGet (fs : List (String × Value)) (k : String) : Option Value :=
  match fs with
  | [] => none
  | (k', v) :: rest => if k' = k then some v else fieldsGet rest k

/-- Does the object have own key `k` (the `key in obj` test on a plain
object without inherited properties)? -/
def fieldsHasKey (fs : List (String × Value)) (k : String) : Bool :=
  match fs with
  | [] => false
  | (k', _) :: rest => if k' = k then true else fieldsHasKey rest k

/-- JS assignment `obj[k] = v`: update the existing binding in place,
otherwise append a new binding at the end. -/
def fieldsSet (fs : List (String × Value)) (k : String) (v : Value) :
    List (String × Value) :=
  match fs with
  | [] => [(k, v)]
  | (k', v') :: rest =>
    if k' = k then (k, v) :: rest else (k', v') :: fieldsSet rest k v

/-- JS `delete obj[k]`: remove the binding for `k` (first occurrence). -/
def fieldsDel (fs : List (String × Value)) (k : String) :
    List (String × Value) :=
  match fs with
  | [] => []
  | (k', v') :: rest =>
    if k' = k then rest else (k', v') :: fieldsDel rest k

/-- Apply `f` to the value bound to `k`, leaving everything else unchanged
(used to mirror an in-place mutation of a child object reached by key `k`). -/
def fieldsModify (fs : List (String × Value)) (k : String)
    (f : Value → Value) : List (String × Value) :=
  match fs with
  | [] => []
  | (k', v') :: rest =>
    if k' = k then (k', f v') :: rest else (k', v') :: fieldsModify rest k f

/-- JavaScript `String.prototype.split('.')` on a character list: split at
every dot, preserving empty pieces. -/
def splitDots : List Char → List (List Char)
  | [] => [[]]
  | c :: rest =>
    if c = '.' then [] :: splitDots rest
    else
      match splitDots rest with
      | s :: ss => (c :: s) :: ss
      | [] => [[c]]

/-- `CoreTupleStore.normalizePath` for a string argument: the empty string
normalizes to the root (empty) path, otherwise split on `"."` (JS
`String(path).split(".")`). -/
def normalizePath (path : String) : List String :=
  if path = "" then [] else (splitDots path.toList).map List.asString

/-- `CoreTupleStore.getNestedValue`: walk the path; `undefined`/`null`
short-circuit to `undefined`, indexing a scalar yields `undefined`. -/
def getNestedValue (v : Value) : List String → Value
  | [] => v
  | k :: rest =>
    match v with
    | .vUndef => getNestedValue .vUndef rest
    | .vNull => .vUndef
    | .vObj fs => getNestedValue ((fieldsGet fs k).getD .vUndef) rest
    | _ => getNestedValue .vUndef rest

/-- The mutation performed by `CoreTupleStore.setNestedValue(obj, path, value)`
on `obj`.  For a non-empty path, intermediate segments whose current value is
missing, `null`, or not object-typed are overwritten with a fresh empty
object; the final segment is assigned.  For the empty path the function
returns `value` without mutating `obj`, so the tree is unchanged. -/
def setNestedValue (v : Value) : List String → Value → Value
  | [], _ => v
  | [k], x =>
    match v with
    | .vObj fs => .vObj (fieldsSet fs k x)
    | other => other
  | k :: k' :: rest, x =>
    match v with
    | .vObj fs =>
      let child :=
        match fieldsGet fs k with
        | some c => if c.isObjLike then c else Value.vObj []
        | none => Value.vObj []
      .vObj (fieldsSet fs k (setNestedValue child (k' :: rest) x))
    | other => other

/-- `CoreTupleStore.set`: effect on the stored tree.  The source calls
`setNestedValue(this.data, path, value)` and discards its return value,
then returns `true` unconditionally. -/
def coreSet (data : Value) (path : List String) (v : Value) : Value :=
  setNestedValue data path v

/-- `CoreTupleStore.set` return value (always `true`). -/
def coreSetResult : Bool := true

/-- `CoreTupleStore.get`. -/
def coreGet (data : Value) (path : List String) : Value :=
  getNestedValue data path

/-- `CoreTupleStore.has`.  The result is `Except`: walking into a scalar
(primitive) evaluates `key in current` on a non-object, which throws a
`TypeError` in JavaScript; this is modelled as `.error ()`. -/
def coreHas (v : Value) : List String → Except Unit Bool
  | [] => .ok true
  | k :: rest =>
    match v with
    | .vUndef => .ok false
    | .vNull => .ok false
    | .vObj fs =>
      if fieldsHasKey fs k then coreHas ((fieldsGet fs k).getD .vUndef) rest
      else .ok false
    | _ => .error ()

/-- Removal performed by `CoreTupleStore.delete` once the parent object has
been located: rebuild the tree with the final key deleted from its parent. -/
def deleteAt (v : Value) : List String → Value
  | [] => v
  | [k] =>
    match v with
    | .vObj fs => .vObj (fieldsDel fs k)
    | other => other
  | k :: k' :: rest =>
    match v with
    | .vObj fs => .vObj (fieldsModify fs k (fun c => deleteAt c (k' :: rest)))
    | other => other

/-- `CoreTupleStore.delete`: returns `(existed, new tree)`.  The root path
fails; a parent that is not an object fails; otherwise the key is deleted
and the returned boolean is whether the key existed before deletion. -/
def coreDelete (data : Value) (path : List String) : Bool × Value :=
  match path with
  | [] => (false, data)
  | _ :: _ =>
    let parentPath := path.dropLast
    let key := path.getLastD ""
    let parent := if parentPath.isEmpty then data
                  else getNestedValue data parentPath
    match parent with
    | .vObj fs => (fieldsHasKey fs key, deleteAt data path)
    | _ => (false, data)

/-- One subsequent mutation of the core store: a `set` or a `delete`.
(`clear` and `import` replace the whole tree, i.e. they are mutations of the
root path, and the root path overlaps every path.) -/
inductive Mut where
  | mset (q : List String) (w : Value) : Mut
  | mdel (q : List String) : Mut

/-- The path a mutation touches. -/
def mutPath : Mut → List String
  | .mset q _ => q
  | .mdel q => q

/-- Effect of one mutation on the stored tree. -/
def applyMut (d : Value) : Mut → Value
  | .mset q w => coreSet d q w
  | .mdel q => (coreDelete d q).2

/-- Effect of a sequence of mutations, oldest first. -/
def applyMuts (d : Value) (ms : List Mut) : Value :=
  ms.foldl applyMut d

/-- Boolean segment-list test: is the first path an initial segment of the
second? -/
def pathPre : List String → List String → Bool
  | [], _ => true
  | _ :: _, [] => false
  | a :: as, b :: bs => a == b && pathPre as bs

/-- Two paths overlap when one is an initial segment of the other (only then
can a mutation on one affect reads on the other). -/
def overlapsB (p q : List String) : Bool := pathPre p q || pathPre q p

/-- Dot-join of path segments (`currentPath.join(".")`). -/
def joinDots : List String → String
  | [] => ""
  | [s] => s
  | s :: rest => s ++ "." ++ joinDots rest

mutual

/-- The recursive `search` helper of `CoreTupleStore.find`: walk the tree in
lock-step with the remaining pattern segments.  At end of pattern, record the
current path.  A `"*"` segment descends into every child.  A `"**"` segment
records the current path immediately, then for every child both keeps `"**"`
in place and advances past it.  A literal segment descends only if the key is
present (`part in obj`; objects are modelled without inherited keys). -/
def search : List String → Value → List String → List String
  | [], _, cur => [joinDots cur]
  | part :: rest, v, cur =>
    if part = "*" then
      match v with
      | .vObj fs => searchStar rest fs cur
      | _ => []
    else if part = "**" then
      joinDots cur ::
        (match v with
         | .vObj fs => searchDeep (part :: rest) rest fs cur
         | _ => [])
    else
      match v with
      | .vObj fs => searchExact part rest fs cur
      | _ => []

/-- `"*"` case of `search`: descend into every child key in insertion order. -/
def searchStar (rest : List String) : List (String × Value) → List String →
    List String
  | [], _ => []
  | (k, c) :: fs, cur =>
    search rest c (cur ++ [k]) ++ searchStar rest fs cur

/-- `"**"` case of `search`: for every child key, first keep the `"**"`
pattern segment in place, then advance past it. -/
def searchDeep (stay rest : List String) : List (String × Value) →
    List String → List String
  | [], _ => []
  | (k, c) :: fs, cur =>
    search stay c (cur ++ [k]) ++ search rest c (cur ++ [k]) ++
      searchDeep stay rest fs cur

/-- Literal case of `search`: descend into the child bound to `part`,
if present. -/
def searchExact (part : String) (rest : List String) :
    List (String × Value) → List String → List String
  | [], _ => []
  | (k, c) :: fs, cur =>
    if k = part then search rest c (cur ++ [part])
    else searchExact part rest fs cur

end

/-- `CoreTupleStore.find`: run `search` from the root with an empty current
path (the pattern is already normalized into segments). -/
def find (data : Value) (patternParts : List String) : List String :=
  search patternParts data []

/-! ### The point-match algorithm (`ObservableTupleStore.matchesPattern`)

The source builds a JavaScript regular expression from the pattern string by
three successive global string replacements and tests the path against it,
anchored on both sides:

  pattern.replace(/\./g, '\\.').replace(/\*\*/g, '.*').replace(/\*/g, '[^.]+')

The replacements are modelled character-for-character below (note that the
third replacement also rewrites the `*` introduced by the second one, so a
`**` that is not caught by the `.**`-suffix special case compiles to `.[^.]+`,
not `.*`).  For patterns over the documented grammar (dots, stars, plain
characters) the resulting regular expressions only ever use literal
characters, `\.` escapes, the `.` metacharacter and the `[^.]+` class.  The
parser and matcher below implement that fragment, plus the JavaScript `+`
quantifier applied to a preceding literal character (a pattern character
such as `+` survives the replacement pipeline unchanged, so for example the
pattern `a+b` compiles to the regex `^a+b$`, which matches `aab`).  Other
literal pattern characters are matched verbatim, which coincides with
JavaScript regex semantics as long as the pattern contains no further regex
metacharacters (the agreement theorems restrict pattern characters
accordingly; quantifier stacking such as `*+`, which makes the `RegExp`
constructor itself throw a `SyntaxError`, is outside every theorem's
hypotheses). -/

/-- `pattern.replace(/\./g, '\\.')`. -/
def escDots : List Char → List Char
  | [] => []
  | c :: cs => if c = '.' then '\\' :: '.' :: escDots cs else c :: escDots cs

/-- `pattern.replace(/\*\*/g, '.*')` (left-to-right, non-overlapping). -/
def replStarStar : List Char → List Char
  | '*' :: '*' :: cs => '.' :: '*' :: replStarStar cs
  | c :: cs => c :: replStarStar cs
  | [] => []

/-- `pattern.replace(/\*/g, '[^.]+')`. -/
def replStar : List Char → List Char
  | [] => []
  | c :: cs =>
    if c = '*' then '[' :: '^' :: '.' :: ']' :: '+' :: replStar cs
    else c :: replStar cs

/-- Atoms of the regular-expression fragment produced by the replacement
pipeline: a literal character, a literal quantified by `+` (one or more
repetitions), the `.` metacharacter, or the class-plus `[^.]+` (one or more
non-dot characters). -/
inductive RAtom where
  | lit (c : Char) : RAtom
  | litPlus (c : Char) : RAtom
  | anyChar : RAtom
  | nonDotPlus : RAtom
deriving Repr, DecidableEq

/-- Parse the constructed regex source into atoms: `\c` is the escaped
literal `c`, the five-character sequence `[^.]+` is the class-plus, a bare
`.` is the any-character metacharacter, a literal followed by `+` is that
literal under the one-or-more quantifier, and everything else is a
literal. -/
def parseAtoms : List Char → List RAtom
  | [] => []
  | '\\' :: c :: cs => .lit c :: parseAtoms cs
  | '[' :: '^' :: '.' :: ']' :: '+' :: cs => .nonDotPlus :: parseAtoms cs
  | '.' :: cs => .anyChar :: parseAtoms cs
  | c :: '+' :: cs => .litPlus c :: parseAtoms cs
  | c :: cs => .lit c :: parseAtoms cs

/-- Anchored matching of the atom list against the character list
(`new RegExp('^' + p + '$').test(path)`).  A one-or-more atom (`c+` or
`[^.]+`) consumes one admissible character and then either closes the
quantifier or stays in it (backtracking disjunction), which is exactly the
one-or-more semantics. -/
def rmatch : List RAtom → List Char → Bool
  | [], [] => true
  | [], _ :: _ => false
  | .lit _ :: _, [] => false
  | .lit c :: as, d :: s => c = d && rmatch as s
  | .litPlus _ :: _, [] => false
  | .litPlus c :: as, d :: s =>
    c = d && (rmatch as s || rmatch (.litPlus c :: as) s)
  | .anyChar :: _, [] => false
  | .anyChar :: as, _ :: s => rmatch as s
  | .nonDotPlus :: _, [] => false
  | .nonDotPlus :: as, d :: s =>
    d ≠ '.' && (rmatch as s || rmatch (.nonDotPlus :: as) s)

/-- The full compilation pipeline from pattern characters to regex atoms. -/
def compilePattern (pattern : List Char) : List RAtom :=
  parseAtoms (replStar (replStarStar (escDots pattern)))

/-- Boolean list-prefix test (`path.startsWith(prefixString + '.')`). -/
def listIsPre : List Char → List Char → Bool
  | [], _ => true
  | _ :: _, [] => false
  | a :: as, b :: bs => a = b && listIsPre as bs

/-- `ObservableTupleStore.matchesPattern` on character lists: a pattern
ending in `.**` is special-cased to a path-prefix test, otherwise the
compiled regular expression is tested against the whole path. -/
def matchesPatternL (path pattern : List Char) : Bool :=
  match pattern.reverse with
  | '*' :: '*' :: '.' :: preRev =>
    let pre := preRev.reverse
    path = pre || listIsPre (pre ++ ['.']) path
  | _ => rmatch (compilePattern pattern) path

/-- `ObservableTupleStore.matchesPattern(path, pattern)`. -/
def matchesPattern (path pattern : String) : Bool :=
  matchesPatternL path.toList pattern.toList

/-! ### JournaledTupleStore -/

/-- Journal entry kinds (`JournalEntryType`). -/
inductive JEntryType where
  | jset : JEntryType
  | jdelete : JEntryType
  | jclear : JEntryType
  | jimport : JEntryType
  | jtransaction : JEntryType
deriving Repr, DecidableEq

/-- Buffered transaction operation kinds. -/
inductive TxOpType where
  | tset : TxOpType
  | tdelete : TxOpType
deriving Repr, DecidableEq

/-- A buffered transaction operation record (`{type, path, value, oldValue}`;
delete records carry no `value`, modelled as `vUndef`). -/
structure TxOp where
  type : TxOpType
  path : List String
  value : Value
  oldValue : Value

/-- A journal entry; optional interface fields are `Option`s, `timestamp`
is the `Date.now()` value supplied by the caller. -/
structure JEntry where
  type : JEntryType
  path : Option (List String)
  value : Option Value
  oldValue : Option Value
  timestamp : Nat
  data : Option Value
  id : Option Nat
  operations : Option (List TxOp)
  previousState : Option Value

/-- A `Transaction` (the random string id is modelled as a `Nat`). -/
structure Txn where
  id : Nat
  operations : List TxOp
  timestamp : Nat

/-- `JournaledTupleStore` state, wrapping a `CoreTupleStore` whose tree is
`data`.  The constructor guarantees `maxJournalEntries ≥ 1`
(`options.maxJournalEntries || 1000`). -/
structure JStore where
  data : Value
  journal : List JEntry
  journalEnabled : Bool
  maxJournalEntries : Nat
  currentTransaction : Option Txn

/-- `TupleStoreOptions` as observed by the journaled/observable layers:
`journal` models `options.journal !== false`, `silent` models
`options.silent === true` (the `transaction` option is not supplied, so the
transaction in effect is always the current one). -/
structure Opts where
  journal : Bool
  silent : Bool

/-- Options object with all defaults (`{}`). -/
def defaultOpts : Opts := ⟨true, false⟩

/-- `JournaledTupleStore.addJournalEntry`: append, then trim to the most
recent `maxJournalEntries` entries (`journal.slice(-max)`, with `max ≥ 1`
from the constructor). -/
def addJournalEntry (s : JStore) (e : JEntry) : JStore :=
  if s.journalEnabled = false then s
  else
    let j := s.journal ++ [e]
    if j.length > s.maxJournalEntries then
      { s with journal := j.drop (j.length - s.maxJournalEntries) }
    else
      { s with journal := j }

/-- `JournaledTupleStore.set` (`now` stands for `Date.now()`).  When a
transaction is open the operation is buffered; otherwise, if journaling is
on, a standalone entry is appended. -/
def jset (s : JStore) (now : Nat) (path : List String) (v : Value)
    (opts : Opts) : Bool × JStore :=
  let journalOn := opts.journal && s.journalEnabled
  let oldValue := getNestedValue s.data path
  let data' := coreSet s.data path v
  match s.currentTransaction with
  | some t =>
    (true, { s with
      data := data'
      currentTransaction := some { t with operations :=
        t.operations ++ [⟨.tset, path, v, oldValue⟩] } })
  | none =>
    if journalOn then
      (true, addJournalEntry { s with data := data' }
        ⟨.jset, some path, some v, some oldValue, now, none, none, none,
          none⟩)
    else
      (true, { s with data := data' })

/-- `JournaledTupleStore.delete`. -/
def jdelete (s : JStore) (now : Nat) (path : List String) (opts : Opts) :
    Bool × JStore :=
  let journalOn := opts.journal && s.journalEnabled
  let oldValue := getNestedValue s.data path
  let res := coreDelete s.data path
  if res.1 then
    match s.currentTransaction with
    | some t =>
      (true, { s with
        data := res.2
        currentTransaction := some { t with operations :=
          t.operations ++ [⟨.tdelete, path, .vUndef, oldValue⟩] } })
    | none =>
      if journalOn then
        (true, addJournalEntry { s with data := res.2 }
          ⟨.jdelete, some path, none, some oldValue, now, none, none, none,
            none⟩)
      else
        (true, { s with data := res.2 })
  else
    (false, { s with data := res.2 })

/-- `JournaledTupleStore.beginTransaction`: throws if a transaction is
already in progress; `now` seeds the fresh id and timestamp. -/
def beginTransaction (s : JStore) (now : Nat) :
    Except String (Txn × JStore) :=
  match s.currentTransaction with
  | some _ =>
    .error "Cannot begin a transaction while another is in progress"
  | none =>
    let t : Txn := ⟨now, [], now⟩
    .ok (t, { s with currentTransaction := some t })

/-- Undo of a single buffered operation during rollback: a `set` is re-set
to its recorded old value; a `delete` is re-set only when the recorded old
value is not `undefined`. -/
def undoOp (d : Value) (op : TxOp) : Value :=
  match op.type with
  | .tset => coreSet d op.path op.oldValue
  | .tdelete =>
    match op.oldValue with
    | .vUndef => d
    | _ => coreSet d op.path op.oldValue

/-- Reverse-order replay (`for i = ops.length - 1 downto 0`). -/
def rollbackOps (d : Value) (ops : List TxOp) : Value :=
  ops.foldr (fun op acc => undoOp acc op) d

/-- `JournaledTupleStore.rollbackTransaction` called without an argument
(so the transaction defaults to the current one and the identity check
passes): throws if no transaction is open, otherwise replays the buffer in
reverse order against the underlying store and clears the transaction. -/
def rollbackTransaction (s : JStore) : Except String (Bool × JStore) :=
  match s.currentTransaction with
  | none => .error "No transaction to rollback"
  | some t =>
    .ok (true, { s with
      data := rollbackOps s.data t.operations
      currentTransaction := none })

/-- `JournaledTupleStore.commitTransaction` called without an argument. -/
def commitTransaction (s : JStore) (now : Nat) :
    Except String (Bool × JStore) :=
  match s.currentTransaction with
  | none => .error "No transaction to commit"
  | some t =>
    let s' :=
      if s.journalEnabled then
        addJournalEntry s ⟨.jtransaction, none, none, none, now, none,
          some t.id, some t.operations, none⟩
      else s
    .ok (true, { s' with currentTransaction := none })

/-- `JournaledTupleStore.getJournal` (the source returns a fresh array copy;
in the pure model the copy is the list itself). -/
def getJournal (s : JStore) : List JEntry := s.journal

/-- Every segment of `p` resolves in `v` through objects down to an existing
key (so a `set` at `p` merely overwrites an existing leaf and coerces
nothing). -/
def existsPath (v : Value) : List String → Bool
  | [] => true
  | k :: rest =>
    match v with
    | .vObj fs =>
      match fieldsGet fs k with
      | some c => existsPath c rest
      | none => false
    | _ => false

/-- A sequence of set operations is "safe" for exact rollback: each path is
non-empty and fully exists in the state the operation runs against. -/
def safeSetsB (d : Value) : List (List String × Value) → Bool
  | [] => true
  | (p, v) :: ps =>
    !p.isEmpty && existsPath d p && safeSetsB (coreSet d p v) ps

/-- Run a list of `set(path, value)` calls through the journaled store. -/
def applyTxnSets (now : Nat) (s : JStore)
    (ps : List (List String × Value)) : JStore :=
  ps.foldl (fun s pv => (jset s now pv.1 pv.2 defaultOpts).2) s

/-- The same list of sets applied directly to the tree. -/
def applyData (d : Value) (ps : List (List String × Value)) : Value :=
  ps.foldl (fun d pv => coreSet d pv.1 pv.2) d

/-- The buffered operation records a run of sets produces, starting from
tree `d` (each op records the old value read just before it executes). -/
def recordedOps (d : Value) : List (List String × Value) → List TxOp
  | [] => []
  | (p, v) :: ps =>
    ⟨.tset, p, v, getNestedValue d p⟩ :: recordedOps (coreSet d p v) ps

/-! ### ObservableTupleStore -/

/-- Observable store state: the wrapped store's tree plus the subscription
map (pattern string to callback handles, in insertion order; callbacks are
opaque handles modelled as `Nat`). -/
structure OStore where
  store : Value
  subscribers : List (String × List Nat)

/-- One callback invocation `(callback, newValue, oldValue, path)`. -/
structure Call where
  cb : Nat
  newValue : Value
  oldValue : Value
  path : List String

/-- `subscriberPath.includes('*')`. -/
def strHasStar (s : String) : Bool := s.toList.contains '*'

/-- `ObservableTupleStore.notifySubscribers` (with the path already an
array): returns the list of callback invocations performed, in subscriber
iteration order.  A subscriber fires on exact path equality, or on a
wildcard pattern that point-matches. -/
def notifySubscribers (subs : List (String × List Nat)) (path : List String)
    (newValue oldValue : Value) : List Call :=
  let pathString := joinDots path
  (subs.map (fun pr =>
    if pr.1 == pathString ||
        (strHasStar pr.1 && matchesPattern pathString pr.1) then
      pr.2.map (fun c => ⟨c, newValue, oldValue, path⟩)
    else [])).flatten

/-- `ObservableTupleStore.set` over a core store: reads the old value,
delegates, then notifies unless silent.  Returns
(result, new state, invocations). -/
def oset (s : OStore) (path : List String) (v : Value) (opts : Opts) :
    Bool × OStore × List Call :=
  let silent := opts.silent
  let oldValue := getNestedValue s.store path
  let store' := coreSet s.store path v
  if !silent then
    (true, { s with store := store' },
      notifySubscribers s.subscribers path v oldValue)
  else
    (true, { s with store := store' }, [])

/-- `ObservableTupleStore.delete` over a core store. -/
def odelete (s : OStore) (path : List String) (opts : Opts) :
    Bool × OStore × List Call :=
  let silent := opts.silent
  let oldValue := getNestedValue s.store path
  let res := coreDelete s.store path
  if res.1 && !silent then
    (res.1, { s with store := res.2 },
      notifySubscribers s.subscribers path .vUndef oldValue)
  else
    (res.1, { s with store := res.2 }, [])

/-! ### Heap model (for the aliasing claim)

The pure `Value` model cannot express aliasing, so the deep-copy claim is
settled over a small heap semantics: JavaScript objects live at numeric
addresses, object-valued fields are references, and a client mutating "the
object returned by `get`" is a field write at the returned address. -/

/-- A heap value: a primitive or a reference to an object address. -/
inductive HVal where
  | hUndef : HVal
  | hNull : HVal
  | hBool (b : Bool) : HVal
  | hNum (n : Int) : HVal
  | hStr (s : String) : HVal
  | ref (a : Nat) : HVal
deriving Repr, DecidableEq

/-- An object on the heap: ordered fields holding heap values. -/
abbrev HObj := List (String × HVal)

/-- The heap: objects indexed by address; the store's root object is at
address `0`. -/
abbrev Heap := List HObj

/-- Object stored at address `a`. -/
def heapGet (h : Heap) (a : Nat) : HObj := h.getD a []

/-- First binding for `k` in a heap object. -/
def hObjLookup (o : HObj) (k : String) : Option HVal :=
  match o with
  | [] => none
  | (k', v) :: rest => if k' = k then some v else hObjLookup rest k

/-- JS assignment `obj[k] = v` on a heap object. -/
def hObjSet (o : HObj) (k : String) (v : HVal) : HObj :=
  match o with
  | [] => [(k, v)]
  | (k', v') :: rest =>
    if k' = k then (k, v) :: rest else (k', v') :: hObjSet rest k v

/-- A field write `(addressed object).k = v` — this is what a client does
when it mutates an object reference the store handed out. -/
def writeField (h : Heap) (a : Nat) (k : String) (v : HVal) : Heap :=
  h.set a (hObjSet (heapGet h a) k v)

/-- `getNestedValue` over the heap. -/
def getNestedH (h : Heap) (cur : HVal) : List String → HVal
  | [] => cur
  | k :: rest =>
    match cur with
    | .hUndef => getNestedH h .hUndef rest
    | .hNull => .hUndef
    | .ref a => getNestedH h ((hObjLookup (heapGet h a) k).getD .hUndef) rest
    | _ => getNestedH h .hUndef rest

/-- `CoreTupleStore.get` in the heap model: returns the stored heap value
itself — a reference into the store's own object graph when the subtree is
an object.  No copy is made (the source has no `structuredClone` in
`get`). -/
def coreGetH (h : Heap) (path : List String) : HVal :=
  getNestedH h (.ref 0) path

/-- Model of `structuredClone`: copy the object graph reachable from `v`
into freshly allocated addresses appended to the heap (`fuel` bounds the
recursion depth; primitives are returned unchanged).  The fields of a
cloned object are cloned left to right, threading the heap through a
fold. -/
def cloneH : Nat → Heap → HVal → HVal × Heap
  | 0, h, _ => (.hUndef, h)
  | f + 1, h, .ref a =>
    let res := (heapGet h a).foldl
      (fun acc kv =>
        let rv := cloneH f acc.2 kv.2
        (acc.1 ++ [(kv.1, rv.1)], rv.2)) (([] : HObj), h)
    (.ref res.2.length, res.2 ++ [res.1])
  | _, h, other => (other, h)

/-- Observational readback of a heap value as a pure `Value` (fuel-bounded;
used to compare heap states without caring about addresses). -/
def readback : Nat → Heap → HVal → Value
  | 0, _, _ => .vUndef
  | f + 1, h, .ref a =>
    .vObj ((heapGet h a).map (fun kv => (kv.1, readback f h kv.2)))
  | _, _, .hUndef => .vUndef
  | _, _, .hNull => .vNull
  | _, _, .hBool b => .vBool b
  | _, _, .hNum n => .vNum n
  | _, _, .hStr s => .vStr s

/-- `CoreTupleStore.getBranch` in the heap model: the root call and the
object-branch call go through `structuredClone`; a missing branch returns a
freshly allocated empty object (`{}` literal); a scalar branch is returned
as-is. -/
def getBranchH (f : Nat) (h : Heap) (path : List String) : HVal × Heap :=
  match path with
  | [] => cloneH f h (.ref 0)
  | _ :: _ =>
    let branch := getNestedH h (.ref 0) path
    match branch with
    | .hUndef => (.ref h.length, h ++ [[]])
    | .ref a => cloneH f h (.ref a)
    | other => (other, h)

/-- Is every reference stored in this heap value below `n`? -/
def refBelow (n : Nat) (v : HVal) : Bool :=
  match v with
  | .ref a => a < n
  | _ => true

/-- Heap well-formedness: every reference stored anywhere in the heap is a
valid address. -/
def wfHeapB (h : Heap) : Bool :=
  h.all (fun o => o.all (fun kv => refBelow h.length kv.2))

/-! ### Well-formed patterns and keys

`find` joins result segments with `"."` and `matchesPattern` re-splits the
path with a regular expression built by naive string replacement, so the two
algorithms can only be compared on segments that do not collide with the
encoding: pattern segments that are either the wildcard `"*"` or non-empty
literals free of dots, stars and JS-regex metacharacters, and tree keys that
are non-empty and dot-free. -/

/-- Characters that are matched verbatim both by this model and by a
JavaScript regular expression: everything except the dot, the star, and the
JS regex metacharacters. -/
def plainChar (c : Char) : Bool :=
  c ≠ '.' && c ≠ '*' && c ≠ '\\' && c ≠ '[' && c ≠ ']' && c ≠ '^' &&
  c ≠ '+' && c ≠ '?' && c ≠ '(' && c ≠ ')' && c ≠ '{' && c ≠ '}' &&
  c ≠ '|' && c ≠ '$'

/-- A plain literal pattern segment: non-empty and made of plain chars. -/
def plainSegB (s : String) : Bool :=
  !s.toList.isEmpty && s.toList.all plainChar

/-- A well-formed pattern for the agreement theorem: every segment is either
the single-level wildcard or a plain literal (in particular, no `"**"`). -/
def goodPatB (pats : List String) : Bool :=
  pats.all (fun s => s == "*" || plainSegB s)

/-- A well-formed tree key: non-empty and dot-free. -/
def goodKeyB (k : String) : Bool :=
  !k.toList.isEmpty && k.toList.all (fun c => c ≠ '.')

mutual

/-- All keys in the tree are non-empty and dot-free. -/
def goodKeysB : Value → Bool
  | .vObj fs => goodKeysFieldsB fs
  | _ => true

/-- Field-list companion of `goodKeysB`. -/
def goodKeysFieldsB : List (String × Value) → Bool
  | [] => true
  | (k, c) :: fs => goodKeyB k && goodKeysB c && goodKeysFieldsB fs

end

/-- The atoms the replacement pipeline produces for a single well-formed
pattern segment: `"*"` becomes `[^.]+`, a literal becomes its characters. -/
def segAtoms (s : String) : List RAtom :=
  if s = "*" then [.nonDotPlus] else s.toList.map .lit

/-- The atoms the pipeline produces for a whole well-formed pattern:
segment atoms separated by escaped-dot literals. -/
def patAtoms : List String → List RAtom
  | [] => []
  | [s] => segAtoms s
  | s :: ss => segAtoms s ++ .lit '.' :: patAtoms ss

/-- `ks` realizes the pattern `pats`: segmentwise, a `"*"` pattern segment
is realized by any good key, a literal one only by itself. -/
def SegMatch : List String → List String → Prop
  | [], [] => True
  | p :: ps, k :: ks =>
    ((p = "*" ∧ goodKeyB k = true) ∨ k = p) ∧ SegMatch ps ks
  | _, _ => False
/-! ### Helper lemmas about field lists and nested access -/

theorem fieldsGet_fieldsSet (fs : List (String × Value)) (k : String)
    (x : Value) : fieldsGet (fieldsSet fs k x) k = some x := by
  induction fs with
  | nil => simp [fieldsSet, fieldsGet]
  | cons p rest ih =>
    obtain ⟨k', v'⟩ := p
    by_cases h : k' = k <;> simp [fieldsSet, fieldsGet, h, ih]

theorem fieldsHasKey_fieldsSet (fs : List (String × Value)) (k : String)
    (x : Value) : fieldsHasKey (fieldsSet fs k x) k = true := by
  induction fs with
  | nil => simp [fieldsSet, fieldsHasKey]
  | cons p rest ih =>
    obtain ⟨k', v'⟩ := p
    by_cases h : k' = k <;> simp [fieldsSet, fieldsHasKey, h, ih]

theorem fieldsGet_fieldsModify (fs : List (String × Value)) (k : String)
    (f : Value → Value) :
    fieldsGet (fieldsModify fs k f) k = (fieldsGet fs k).map f := by
  induction fs with
  | nil => simp [fieldsModify, fieldsGet]
  | cons p rest ih =>
    obtain ⟨k', v'⟩ := p
    by_cases h : k' = k <;> simp [fieldsModify, fieldsGet, h, ih]

/-- Double assignment at the same existing key restores the original field
list (the key is present, so both assignments update in place). -/
theorem fieldsSet_fieldsSet_cancel (fs : List (String × Value)) (k : String)
    (x c : Value) (h : fieldsGet fs k = some c) :
    fieldsSet (fieldsSet fs k x) k c = fs := by
  induction fs with
  | nil => simp [fieldsGet] at h
  | cons p rest ih =>
    obtain ⟨k', v'⟩ := p
    by_cases hk : k' = k
    · subst hk
      simp [fieldsGet] at h
      simp [fieldsSet, h]
    · simp [fieldsGet, hk] at h
      simp [fieldsSet, hk, ih h]

theorem getNestedValue_vUndef (p : List String) :
    getNestedValue .vUndef p = .vUndef := by
  induction p with
  | nil => rfl
  | cons k rest ih => simpa [getNestedValue] using ih

theorem isObjLike_exists {c : Value} (h : c.isObjLike = true) :
    ∃ gs, c = .vObj gs := by
  cases c <;> simp [Value.isObjLike] at h ⊢

theorem getNestedValue_obj_cons (es : List (String × Value)) (k : String)
    (rest : List String) :
    getNestedValue (.vObj es) (k :: rest) =
      getNestedValue ((fieldsGet es k).getD .vUndef) rest := rfl

theorem coreHas_obj_cons (es : List (String × Value)) (k : String)
    (rest : List String) :
    coreHas (.vObj es) (k :: rest) =
      if fieldsHasKey es k then coreHas ((fieldsGet es k).getD .vUndef) rest
      else .ok false := rfl

theorem fieldsGet_fieldsSet_ne (fs : List (String × Value)) (k k' : String)
    (x : Value) (h : k' ≠ k) :
    fieldsGet (fieldsSet fs k x) k' = fieldsGet fs k' := by
  have h' : ¬ k = k' := fun hh => h hh.symm
  induction fs with
  | nil => simp [fieldsSet, fieldsGet, h']
  | cons p rest ih =>
    obtain ⟨k₀, v₀⟩ := p
    by_cases hk : k₀ = k <;> simp [fieldsSet, fieldsGet, hk, h', ih]

theorem fieldsHasKey_fieldsSet_ne (fs : List (String × Value)) (k k' : String)
    (x : Value) (h : k' ≠ k) :
    fieldsHasKey (fieldsSet fs k x) k' = fieldsHasKey fs k' := by
  have h' : ¬ k = k' := fun hh => h hh.symm
  induction fs with
  | nil => simp [fieldsSet, fieldsHasKey, h']
  | cons p rest ih =>
    obtain ⟨k₀, v₀⟩ := p
    by_cases hk : k₀ = k <;> simp [fieldsSet, fieldsHasKey, hk, h', ih]

theorem fieldsGet_fieldsDel_ne (fs : List (String × Value)) (k k' : String)
    (h : k' ≠ k) :
    fieldsGet (fieldsDel fs k) k' = fieldsGet fs k' := by
  have h' : ¬ k = k' := fun hh => h hh.symm
  induction fs with
  | nil => simp [fieldsDel, fieldsGet]
  | cons p rest ih =>
    obtain ⟨k₀, v₀⟩ := p
    by_cases hk : k₀ = k <;> simp [fieldsDel, fieldsGet, hk, h', ih]

theorem fieldsHasKey_fieldsDel_ne (fs : List (String × Value)) (k k' : String)
    (h : k' ≠ k) :
    fieldsHasKey (fieldsDel fs k) k' = fieldsHasKey fs k' := by
  have h' : ¬ k = k' := fun hh => h hh.symm
  induction fs with
  | nil => simp [fieldsDel, fieldsHasKey]
  | cons p rest ih =>
    obtain ⟨k₀, v₀⟩ := p
    by_cases hk : k₀ = k <;> simp [fieldsDel, fieldsHasKey, hk, h', ih]

theorem fieldsGet_fieldsModify_ne (fs : List (String × Value)) (k k' : String)
    (f : Value → Value) (h : k' ≠ k) :
    fieldsGet (fieldsModify fs k f) k' = fieldsGet fs k' := by
  have h' : ¬ k = k' := fun hh => h hh.symm
  induction fs with
  | nil => simp [fieldsModify, fieldsGet]
  | cons p rest ih =>
    obtain ⟨k₀, v₀⟩ := p
    by_cases hk : k₀ = k <;> simp [fieldsModify, fieldsGet, hk, h', ih]

theorem fieldsHasKey_fieldsModify (fs : List (String × Value)) (k k' : String)
    (f : Value → Value) :
    fieldsHasKey (fieldsModify fs k f) k' = fieldsHasKey fs k' := by
  induction fs with
  | nil => simp [fieldsModify]
  | cons p rest ih =>
    obtain ⟨k₀, v₀⟩ := p
    by_cases hk : k₀ = k <;> simp [fieldsModify, fieldsHasKey, hk, ih]

/-- After `setNestedValue` on an object at a non-empty path, reading the same
path back yields the written value. -/
theorem getNestedValue_setNestedValue (p : List String) :
    ∀ (fs : List (String × Value)) (v : Value), p ≠ [] →
      getNestedValue (setNestedValue (.vObj fs) p v) p = v := by
  induction p with
  | nil => intro fs v h; exact absurd rfl h
  | cons k rest ih =>
    intro fs v _
    cases rest with
    | nil =>
      simp [setNestedValue, getNestedValue, fieldsGet_fieldsSet]
    | cons k' rest' =>
      have hstep :
          setNestedValue (.vObj fs) (k :: k' :: rest') v =
            .vObj (fieldsSet fs k
              (setNestedValue
                (match fieldsGet fs k with
                 | some c => if c.isObjLike then c else Value.vObj []
                 | none => Value.vObj []) (k' :: rest') v)) := rfl
      rw [hstep, getNestedValue_obj_cons, fieldsGet_fieldsSet, Option.getD_some]
      cases hg : fieldsGet fs k with
      | none =>
        simp only [hg]
        exact ih [] v (by simp)
      | some c =>
        by_cases hc : c.isObjLike
        · obtain ⟨gs, rfl⟩ := isObjLike_exists hc
          simp only [hg, if_pos hc]
          exact ih gs v (by simp)
        · simp only [hg, if_neg hc]
          exact ih [] v (by simp)

/-- After `setNestedValue` on an object at a non-empty path, `has` on the
same path succeeds (every traversed node is an object with the key present,
so the `in` operator never sees a primitive). -/
theorem coreHas_setNestedValue (p : List String) :
    ∀ (fs : List (String × Value)) (v : Value), p ≠ [] →
      coreHas (setNestedValue (.vObj fs) p v) p = .ok true := by
  induction p with
  | nil => intro fs v h; exact absurd rfl h
  | cons k rest ih =>
    intro fs v _
    cases rest with
    | nil =>
      simp [setNestedValue, coreHas, fieldsHasKey_fieldsSet,
        fieldsGet_fieldsSet]
    | cons k' rest' =>
      have hstep :
          setNestedValue (.vObj fs) (k :: k' :: rest') v =
            .vObj (fieldsSet fs k
              (setNestedValue
                (match fieldsGet fs k with
                 | some c => if c.isObjLike then c else Value.vObj []
                 | none => Value.vObj []) (k' :: rest') v)) := rfl
      rw [hstep, coreHas_obj_cons, fieldsHasKey_fieldsSet, if_pos rfl,
        fieldsGet_fieldsSet, Option.getD_some]
      cases hg : fieldsGet fs k with
      | none =>
        simp only [hg]
        exact ih [] v (by simp)
      | some c =>
        by_cases hc : c.isObjLike
        · obtain ⟨gs, rfl⟩ := isObjLike_exists hc
          simp only [hg, if_pos hc]
          exact ih gs v (by simp)
        · simp only [hg, if_neg hc]
          exact ih [] v (by simp)

/-- Reading a parent path after `deleteAt` of a key below it: the parent's
field list has that key deleted. -/
theorem getNestedValue_deleteAt (pp : List String) :
    ∀ (d : Value) (k : String) (fs : List (String × Value)),
      getNestedValue d pp = .vObj fs →
      getNestedValue (deleteAt d (pp ++ [k])) pp = .vObj (fieldsDel fs k) := by
  induction pp with
  | nil =>
    intro d k fs h
    have hd : d = .vObj fs := h
    subst hd
    simp [deleteAt, getNestedValue]
  | cons q pp' ih =>
    intro d k fs h
    cases d with
    | vObj es =>
      have hred : getNestedValue (.vObj es) (q :: pp') =
          getNestedValue ((fieldsGet es q).getD .vUndef) pp' := rfl
      rw [hred] at h
      cases hg : fieldsGet es q with
      | none =>
        rw [hg] at h
        simp [getNestedValue_vUndef] at h
      | some c =>
        rw [hg] at h
        have hstep : deleteAt (.vObj es) (q :: (pp' ++ [k])) =
            .vObj (fieldsModify es q (fun x => deleteAt x (pp' ++ [k]))) := by
          cases pp' <;> rfl
        have : (q :: pp') ++ [k] = q :: (pp' ++ [k]) := rfl
        rw [this, hstep]
        simp only [getNestedValue, fieldsGet_fieldsModify, hg, Option.map_some,
          Option.getD_some]
        exact ih c k fs (by simpa using h)
    | vUndef => simp [getNestedValue_vUndef] at h
    | vNull => simp [getNestedValue, getNestedValue_vUndef] at h
    | vBool b => simp [getNestedValue, getNestedValue_vUndef] at h
    | vNum n => simp [getNestedValue, getNestedValue_vUndef] at h
    | vStr s => simp [getNestedValue, getNestedValue_vUndef] at h

/-! ### Frame lemmas: mutations on non-overlapping paths do not disturb a
path's readback or existence -/

theorem getNestedValue_obj_nil (k : String) (p : List String) :
    getNestedValue (Value.vObj []) (k :: p) = .vUndef := by
  rw [getNestedValue_obj_cons]
  exact getNestedValue_vUndef p

theorem getNestedValue_nonObj (c : Value) (hc : ¬ c.isObjLike = true)
    (k : String) (p : List String) :
    getNestedValue c (k :: p) = .vUndef := by
  cases c with
  | vObj fs => simp [Value.isObjLike] at hc
  | vNull => rfl
  | vUndef => exact getNestedValue_vUndef (k :: p)
  | vBool b =>
    show getNestedValue Value.vUndef p = Value.vUndef
    exact getNestedValue_vUndef p
  | vNum n =>
    show getNestedValue Value.vUndef p = Value.vUndef
    exact getNestedValue_vUndef p
  | vStr s =>
    show getNestedValue Value.vUndef p = Value.vUndef
    exact getNestedValue_vUndef p

/-- Writing at a path that neither extends nor is extended by `p` never
changes what is read at `p` (the write only touches its own spine, which
diverges from `p`'s spine at some key). -/
theorem setNestedValue_frame_get : ∀ (p q : List String) (d w : Value),
    pathPre p q = false → pathPre q p = false →
    getNestedValue (setNestedValue d q w) p = getNestedValue d p := by
  intro p
  induction p with
  | nil => intro q d w h1 h2; simp [pathPre] at h1
  | cons a p' ih =>
    intro q d w h1 h2
    cases q with
    | nil => simp [pathPre] at h2
    | cons b q' =>
      cases d with
      | vUndef => cases q' <;> rfl
      | vNull => cases q' <;> rfl
      | vBool bb => cases q' <;> rfl
      | vNum n => cases q' <;> rfl
      | vStr s => cases q' <;> rfl
      | vObj fs =>
        by_cases hab : a = b
        · subst hab
          have h1' : pathPre p' q' = false := by simpa [pathPre] using h1
          have h2' : pathPre q' p' = false := by simpa [pathPre] using h2
          cases q' with
          | nil => simp [pathPre] at h2'
          | cons b' q'' =>
            cases p' with
            | nil => simp [pathPre] at h1'
            | cons a' p'' =>
              have hstep :
                  setNestedValue (Value.vObj fs) (a :: b' :: q'') w =
                    Value.vObj (fieldsSet fs a
                      (setNestedValue
                        (match fieldsGet fs a with
                         | some c => if c.isObjLike then c else Value.vObj []
                         | none => Value.vObj []) (b' :: q'') w)) := rfl
              rw [hstep, getNestedValue_obj_cons, fieldsGet_fieldsSet,
                Option.getD_some, getNestedValue_obj_cons]
              cases hg : fieldsGet fs a with
              | none =>
                rw [ih (b' :: q'') (Value.vObj []) w h1' h2',
                  getNestedValue_obj_nil]
                show Value.vUndef = getNestedValue Value.vUndef (a' :: p'')
                rw [getNestedValue_vUndef]
              | some c =>
                by_cases hc : c.isObjLike
                · obtain ⟨gs, rfl⟩ := isObjLike_exists hc
                  simp only [if_pos hc, Option.getD_some]
                  exact ih (b' :: q'') (Value.vObj gs) w h1' h2'
                · simp only [if_neg hc, Option.getD_some]
                  rw [ih (b' :: q'') (Value.vObj []) w h1' h2',
                    getNestedValue_obj_nil, getNestedValue_nonObj c hc]
        · cases q' with
          | nil =>
            show getNestedValue (Value.vObj (fieldsSet fs b w)) (a :: p') = _
            rw [getNestedValue_obj_cons, getNestedValue_obj_cons,
              fieldsGet_fieldsSet_ne fs b a w hab]
          | cons b' q'' =>
            have hstep :
                setNestedValue (Value.vObj fs) (b :: b' :: q'') w =
                  Value.vObj (fieldsSet fs b
                    (setNestedValue
                      (match fieldsGet fs b with
                       | some c => if c.isObjLike then c else Value.vObj []
                       | none => Value.vObj []) (b' :: q'') w)) := rfl
            rw [hstep, getNestedValue_obj_cons, getNestedValue_obj_cons,
              fieldsGet_fieldsSet_ne fs b a _ hab]

/-- Writing at a non-overlapping path preserves a successful `has`. -/
theorem setNestedValue_frame_has : ∀ (p q : List String) (d w : Value),
    pathPre p q = false → pathPre q p = false →
    coreHas d p = .ok true →
    coreHas (setNestedValue d q w) p = .ok true := by
  intro p
  induction p with
  | nil => intro q d w h1 h2 hh; simp [pathPre] at h1
  | cons a p' ih =>
    intro q d w h1 h2 hh
    cases q with
    | nil => simp [pathPre] at h2
    | cons b q' =>
      cases d with
      | vUndef => simp [coreHas] at hh
      | vNull => simp [coreHas] at hh
      | vBool bb => simp [coreHas] at hh
      | vNum n => simp [coreHas] at hh
      | vStr s => simp [coreHas] at hh
      | vObj fs =>
        rw [coreHas_obj_cons] at hh
        cases hk : fieldsHasKey fs a with
        | false => rw [hk] at hh; simp at hh
        | true =>
          rw [hk, if_pos rfl] at hh
          by_cases hab : a = b
          · subst hab
            have h1' : pathPre p' q' = false := by simpa [pathPre] using h1
            have h2' : pathPre q' p' = false := by simpa [pathPre] using h2
            cases q' with
            | nil => simp [pathPre] at h2'
            | cons b' q'' =>
              cases p' with
              | nil => simp [pathPre] at h1'
              | cons a' p'' =>
                cases hg : fieldsGet fs a with
                | none =>
                  rw [hg] at hh
                  simp [coreHas] at hh
                | some c =>
                  rw [hg] at hh
                  simp only [Option.getD_some] at hh
                  cases c with
                  | vUndef => simp [coreHas] at hh
                  | vNull => simp [coreHas] at hh
                  | vBool cb => simp [coreHas] at hh
                  | vNum cn => simp [coreHas] at hh
                  | vStr cs => simp [coreHas] at hh
                  | vObj gs =>
                    have hstep :
                        setNestedValue (Value.vObj fs) (a :: b' :: q'') w =
                          Value.vObj (fieldsSet fs a
                            (setNestedValue
                              (match fieldsGet fs a with
                               | some c =>
                                 if c.isObjLike then c else Value.vObj []
                               | none => Value.vObj []) (b' :: q'') w)) := rfl
                    rw [hstep, coreHas_obj_cons, fieldsHasKey_fieldsSet,
                      if_pos rfl, fieldsGet_fieldsSet, Option.getD_some, hg]
                    show coreHas (setNestedValue (Value.vObj gs) (b' :: q'') w)
                      (a' :: p'') = Except.ok true
                    exact ih (b' :: q'') (Value.vObj gs) w h1' h2' hh
          · cases q' with
            | nil =>
              show coreHas (Value.vObj (fieldsSet fs b w)) (a :: p') = .ok true
              rw [coreHas_obj_cons, fieldsHasKey_fieldsSet_ne fs b a w hab,
                hk, if_pos rfl, fieldsGet_fieldsSet_ne fs b a w hab]
              exact hh
            | cons b' q'' =>
              have hstep :
                  setNestedValue (Value.vObj fs) (b :: b' :: q'') w =
                    Value.vObj (fieldsSet fs b
                      (setNestedValue
                        (match fieldsGet fs b with
                         | some c => if c.isObjLike then c else Value.vObj []
                         | none => Value.vObj []) (b' :: q'') w)) := rfl
              rw [hstep, coreHas_obj_cons,
                fieldsHasKey_fieldsSet_ne fs b a _ hab, hk, if_pos rfl,
                fieldsGet_fieldsSet_ne fs b a _ hab]
              exact hh

/-- Deleting below a non-overlapping path never changes what is read at
`p`. -/
theorem deleteAt_frame_get : ∀ (p q : List String) (d : Value),
    pathPre p q = false → pathPre q p = false →
    getNestedValue (deleteAt d q) p = getNestedValue d p := by
  intro p
  induction p with
  | nil => intro q d h1 h2; simp [pathPre] at h1
  | cons a p' ih =>
    intro q d h1 h2
    cases q with
    | nil => simp [pathPre] at h2
    | cons b q' =>
      cases d with
      | vUndef => cases q' <;> rfl
      | vNull => cases q' <;> rfl
      | vBool bb => cases q' <;> rfl
      | vNum n => cases q' <;> rfl
      | vStr s => cases q' <;> rfl
      | vObj fs =>
        by_cases hab : a = b
        · subst hab
          have h1' : pathPre p' q' = false := by simpa [pathPre] using h1
          have h2' : pathPre q' p' = false := by simpa [pathPre] using h2
          cases q' with
          | nil => simp [pathPre] at h2'
          | cons b' q'' =>
            cases p' with
            | nil => simp [pathPre] at h1'
            | cons a' p'' =>
              show getNestedValue (Value.vObj (fieldsModify fs a
                  (fun c => deleteAt c (b' :: q'')))) (a :: a' :: p'') = _
              rw [getNestedValue_obj_cons, fieldsGet_fieldsModify,
                getNestedValue_obj_cons]
              cases hg : fieldsGet fs a with
              | none => rfl
              | some c =>
                show getNestedValue (deleteAt c (b' :: q'')) (a' :: p'') =
                  getNestedValue c (a' :: p'')
                exact ih (b' :: q'') c h1' h2'
        · cases q' with
          | nil =>
            show getNestedValue (Value.vObj (fieldsDel fs b)) (a :: p') = _
            rw [getNestedValue_obj_cons, getNestedValue_obj_cons,
              fieldsGet_fieldsDel_ne fs b a hab]
          | cons b' q'' =>
            show getNestedValue (Value.vObj (fieldsModify fs b
                (fun c => deleteAt c (b' :: q'')))) (a :: p') = _
            rw [getNestedValue_obj_cons, getNestedValue_obj_cons,
              fieldsGet_fieldsModify_ne fs b a _ hab]

/-- Deleting below a non-overlapping path preserves a successful `has`. -/
theorem deleteAt_frame_has : ∀ (p q : List String) (d : Value),
    pathPre p q = false → pathPre q p = false →
    coreHas d p = .ok true →
    coreHas (deleteAt d q) p = .ok true := by
  intro p
  induction p with
  | nil => intro q d h1 h2 hh; simp [pathPre] at h1
  | cons a p' ih =>
    intro q d h1 h2 hh
    cases q with
    | nil => simp [pathPre] at h2
    | cons b q' =>
      cases d with
      | vUndef => simp [coreHas] at hh
      | vNull => simp [coreHas] at hh
      | vBool bb => simp [coreHas] at hh
      | vNum n => simp [coreHas] at hh
      | vStr s => simp [coreHas] at hh
      | vObj fs =>
        rw [coreHas_obj_cons] at hh
        cases hk : fieldsHasKey fs a with
        | false => rw [hk] at hh; simp at hh
        | true =>
          rw [hk, if_pos rfl] at hh
          by_cases hab : a = b
          · subst hab
            have h1' : pathPre p' q' = false := by simpa [pathPre] using h1
            have h2' : pathPre q' p' = false := by simpa [pathPre] using h2
            cases q' with
            | nil => simp [pathPre] at h2'
            | cons b' q'' =>
              cases p' with
              | nil => simp [pathPre] at h1'
              | cons a' p'' =>
                cases hg : fieldsGet fs a with
                | none =>
                  rw [hg] at hh
                  simp [coreHas] at hh
                | some c =>
                  rw [hg] at hh
                  simp only [Option.getD_some] at hh
                  cases c with
                  | vUndef => simp [coreHas] at hh
                  | vNull => simp [coreHas] at hh
                  | vBool cb => simp [coreHas] at hh
                  | vNum cn => simp [coreHas] at hh
                  | vStr cs => simp [coreHas] at hh
                  | vObj gs =>
                    show coreHas (Value.vObj (fieldsModify fs a
                        (fun x => deleteAt x (b' :: q''))))
                      (a :: a' :: p'') = .ok true
                    rw [coreHas_obj_cons, fieldsHasKey_fieldsModify, hk,
                      if_pos rfl, fieldsGet_fieldsModify, hg]
                    show coreHas (deleteAt (Value.vObj gs) (b' :: q''))
                      (a' :: p'') = Except.ok true
                    exact ih (b' :: q'') (Value.vObj gs) h1' h2' hh
          · cases q' with
            | nil =>
              show coreHas (Value.vObj (fieldsDel fs b)) (a :: p') = .ok true
              rw [coreHas_obj_cons, fieldsHasKey_fieldsDel_ne fs b a hab,
                hk, if_pos rfl, fieldsGet_fieldsDel_ne fs b a hab]
              exact hh
            | cons b' q'' =>
              show coreHas (Value.vObj (fieldsModify fs b
                  (fun x => deleteAt x (b' :: q'')))) (a :: p') = .ok true
              rw [coreHas_obj_cons, fieldsHasKey_fieldsModify, hk,
                if_pos rfl, fieldsGet_fieldsModify_ne fs b a _ hab]
              exact hh

/-- `coreDelete` either leaves the tree unchanged (root path or non-object
parent) or performs `deleteAt`. -/
theorem coreDelete_snd (d : Value) (b : String) (q' : List String) :
    (coreDelete d (b :: q')).2 = d ∨
      (coreDelete d (b :: q')).2 = deleteAt d (b :: q') := by
  have hgen : ∀ (par : Value),
      ((match par with
        | Value.vObj fs =>
          ((fieldsHasKey fs ((b :: q').getLastD "") : Bool),
            deleteAt d (b :: q'))
        | _ => ((false : Bool), d)) : Bool × Value).2 = d ∨
      ((match par with
        | Value.vObj fs =>
          ((fieldsHasKey fs ((b :: q').getLastD "") : Bool),
            deleteAt d (b :: q'))
        | _ => ((false : Bool), d)) : Bool × Value).2 = deleteAt d (b :: q') := by
    intro par
    cases par with
    | vObj fs => exact Or.inr rfl
    | vUndef => exact Or.inl rfl
    | vNull => exact Or.inl rfl
    | vBool bb => exact Or.inl rfl
    | vNum n => exact Or.inl rfl
    | vStr s => exact Or.inl rfl
  exact hgen (if ((b :: q').dropLast).isEmpty then d
    else getNestedValue d ((b :: q').dropLast))

theorem coreDelete_frame_get (p q : List String) (d : Value)
    (h1 : pathPre p q = false) (h2 : pathPre q p = false) :
    getNestedValue (coreDelete d q).2 p = getNestedValue d p := by
  cases q with
  | nil => simp [pathPre] at h2
  | cons b q' =>
    rcases coreDelete_snd d b q' with he | he
    · rw [he]
    · rw [he]
      exact deleteAt_frame_get p (b :: q') d h1 h2

theorem coreDelete_frame_has (p q : List String) (d : Value)
    (h1 : pathPre p q = false) (h2 : pathPre q p = false)
    (hh : coreHas d p = .ok true) :
    coreHas (coreDelete d q).2 p = .ok true := by
  cases q with
  | nil => simp [pathPre] at h2
  | cons b q' =>
    rcases coreDelete_snd d b q' with he | he
    · rw [he]; exact hh
    · rw [he]
      exact deleteAt_frame_has p (b :: q') d h1 h2 hh

theorem applyMut_frame_get (p : List String) (m : Mut) (d : Value)
    (h : overlapsB p (mutPath m) = false) :
    getNestedValue (applyMut d m) p = getNestedValue d p := by
  cases m with
  | mset q w =>
    have h' : (pathPre p q || pathPre q p) = false := h
    obtain ⟨h1, h2⟩ := Bool.or_eq_false_iff.mp h'
    exact setNestedValue_frame_get p q d w h1 h2
  | mdel q =>
    have h' : (pathPre p q || pathPre q p) = false := h
    obtain ⟨h1, h2⟩ := Bool.or_eq_false_iff.mp h'
    exact coreDelete_frame_get p q d h1 h2

theorem applyMut_frame_has (p : List String) (m : Mut) (d : Value)
    (h : overlapsB p (mutPath m) = false)
    (hh : coreHas d p = .ok true) :
    coreHas (applyMut d m) p = .ok true := by
  cases m with
  | mset q w =>
    have h' : (pathPre p q || pathPre q p) = false := h
    obtain ⟨h1, h2⟩ := Bool.or_eq_false_iff.mp h'
    exact setNestedValue_frame_has p q d w h1 h2 hh
  | mdel q =>
    have h' : (pathPre p q || pathPre q p) = false := h
    obtain ⟨h1, h2⟩ := Bool.or_eq_false_iff.mp h'
    exact coreDelete_frame_has p q d h1 h2 hh

theorem applyMuts_frame_get (p : List String) (ms : List Mut) :
    ∀ (d : Value), (∀ m ∈ ms, overlapsB p (mutPath m) = false) →
    getNestedValue (applyMuts d ms) p = getNestedValue d p := by
  induction ms with
  | nil => intro d _; rfl
  | cons m ms' ih =>
    intro d hms
    have hstep : applyMuts d (m :: ms') = applyMuts (applyMut d m) ms' := rfl
    rw [hstep, ih (applyMut d m) (fun x hx => hms x (by simp [hx])),
      applyMut_frame_get p m d (hms m (by simp))]

theorem applyMuts_frame_has (p : List String) (ms : List Mut) :
    ∀ (d : Value), (∀ m ∈ ms, overlapsB p (mutPath m) = false) →
    coreHas d p = .ok true →
    coreHas (applyMuts d ms) p = .ok true := by
  induction ms with
  | nil => intro d _ hh; exact hh
  | cons m ms' ih =>
    intro d hms hh
    have hstep : applyMuts d (m :: ms') = applyMuts (applyMut d m) ms' := rfl
    rw [hstep]
    exact ih (applyMut d m) (fun x hx => hms x (by simp [hx]))
      (applyMut_frame_has p m d (hms m (by simp)) hh)

/-! ### Claim C2 -/

/-- C2 counterexample: setting at the root path (the empty segment sequence,
which is what the empty string normalizes to) is a no-op on the tree, because
`set` discards the value returned by `setNestedValue` for an empty path.  On
the empty store, `set([], 5)` returns `true` yet `get([])` still returns the
empty object, not `5`.  This refutes the claim for the root path. -/
theorem c2_root_set_counterexample :
    normalizePath "" = [] ∧
    coreSet (Value.vObj []) [] (Value.vNum 5) = Value.vObj [] ∧
    coreSetResult = true ∧
    getNestedValue (coreSet (Value.vObj []) [] (Value.vNum 5)) [] ≠
      Value.vNum 5 := by
  refine ⟨rfl, rfl, rfl, ?_⟩
  intro h
  exact Value.noConfusion h

/-- C2 (amended): for every NON-EMPTY path `p` and every value `v`,
immediately after `set(p, v)` on an object-rooted store, `get(p)` returns
`v` and `has(p)` is `true` (and does not throw); `set` itself returns
`true`; and both facts persist across every further sequence of `set` and
`delete` mutations whose paths do not overlap `p` (neither path an initial
segment of the other) — i.e. they hold until the next mutation on an
overlapping path.  `clear` and `import` replace the whole tree: they are
mutations of the root path, which overlaps every path.  For the root path
itself the claim fails: `set` returns `true` but leaves the tree
unchanged. -/
theorem c2_set_get_has (fs : List (String × Value)) (p : List String)
    (v : Value) (hp : p ≠ []) (ms : List Mut)
    (hms : ∀ m ∈ ms, overlapsB p (mutPath m) = false) :
    getNestedValue (applyMuts (coreSet (Value.vObj fs) p v) ms) p = v ∧
    coreHas (applyMuts (coreSet (Value.vObj fs) p v) ms) p = .ok true ∧
    coreSetResult = true :=
  ⟨(applyMuts_frame_get p ms (coreSet (Value.vObj fs) p v) hms).trans
     (getNestedValue_setNestedValue p fs v hp),
   applyMuts_frame_has p ms (coreSet (Value.vObj fs) p v) hms
     (coreHas_setNestedValue p fs v hp), rfl⟩

/-- C2 witness: concrete instance of the amended claim at path
`["user", "name"]`, persisting across a later `set` at the sibling path
`["user", "age"]` and a later `delete` at the disjoint path
`["config"]`. -/
theorem c2_set_get_has_witness :
    getNestedValue (applyMuts (coreSet (Value.vObj []) ["user", "name"]
        (Value.vStr "John"))
        [Mut.mset ["user", "age"] (Value.vNum 30), Mut.mdel ["config"]])
      ["user", "name"] = Value.vStr "John" ∧
    coreHas (applyMuts (coreSet (Value.vObj []) ["user", "name"]
        (Value.vStr "John"))
        [Mut.mset ["user", "age"] (Value.vNum 30), Mut.mdel ["config"]])
      ["user", "name"] = .ok true ∧
    coreSetResult = true :=
  c2_set_get_has [] ["user", "name"] (Value.vStr "John") (by simp)
    [Mut.mset ["user", "age"] (Value.vNum 30), Mut.mdel ["config"]]
    (by decide)

/-! ### Claim C4 -/

/-- C4: the claim states that every data-path operation (in particular
`has`) never throws.  The code contradicts this: `has` evaluates
`key in current` after stepping into a stored primitive, and the JavaScript
`in` operator throws a `TypeError` when its right operand is not an object.
Concretely, after `set("a", 5)` the store is `{a: 5}`, and `has("a.b")`
reaches `"b" in 5`, which throws.  The embedding models the thrown
`TypeError` as `Except.error ()`. -/
theorem c4_has_throws_on_scalar :
    coreSet (Value.vObj []) ["a"] (Value.vNum 5) =
      Value.vObj [("a", Value.vNum 5)] ∧
    normalizePath "a.b" = ["a", "b"] ∧
    coreHas (Value.vObj [("a", Value.vNum 5)]) ["a", "b"] =
      .error () := by
  refine ⟨rfl, ?_, rfl⟩
  rfl

/-! ### Claims C6 and C7 -/

/-- C6 counterexample: the claim states `delete(p)` returns `true` even when
the key did not exist, as long as the parent resolved to an object.  The
code returns `existed = key in parent` instead: deleting the missing key
`"a"` from the empty root object returns `false`, not `true`. -/
theorem c6_delete_missing_counterexample :
    coreDelete (Value.vObj []) ["a"] = (false, Value.vObj []) := rfl

/-- C6 (amended): for every non-root path whose parent segment resolves to
an object, `delete` removes the key from the parent and returns whether the
key existed BEFORE the deletion (not unconditionally `true`); it returns
`false` if the path is root or the parent does not resolve to an object. -/
theorem c6_delete_returns_existed (d : Value) (pp : List String) (k : String)
    (fs : List (String × Value)) (hpar : getNestedValue d pp = Value.vObj fs) :
    (coreDelete d (pp ++ [k])).1 = fieldsHasKey fs k ∧
    getNestedValue (coreDelete d (pp ++ [k])).2 pp =
      Value.vObj (fieldsDel fs k) := by
  have he : coreDelete d (pp ++ [k]) =
      (fieldsHasKey fs k, deleteAt d (pp ++ [k])) := by
    cases pp with
    | nil =>
      have hd : d = Value.vObj fs := hpar
      subst hd
      rfl
    | cons q pp' =>
      show coreDelete d ((q :: pp') ++ [k]) = _
      rw [List.cons_append]
      show (let parentPath := (q :: (pp' ++ [k])).dropLast
            let key := (q :: (pp' ++ [k])).getLastD ""
            let parent := if parentPath.isEmpty then d
                          else getNestedValue d parentPath
            match parent with
            | .vObj gs => (fieldsHasKey gs key, deleteAt d (q :: (pp' ++ [k])))
            | _ => (false, d)) = _
      rw [show q :: (pp' ++ [k]) = (q :: pp') ++ [k] from rfl,
        List.dropLast_concat]
      have hlast : ((q :: pp') ++ [k]).getLastD "" = k := by
        show ((q :: pp') ++ [k]).getLast?.getD "" = k
        rw [List.getLast?_concat]
        rfl
      rw [hlast]
      simp only [List.isEmpty_cons, Bool.false_eq_true, if_false, hpar]
  rw [he]
  exact ⟨rfl, getNestedValue_deleteAt pp d k fs hpar⟩

/-- C6 witness: concrete instance of the amended claim: deleting the
existing key `"a"` of the root object returns `true` and removes it. -/
theorem c6_delete_returns_existed_witness :
    (coreDelete (Value.vObj [("a", Value.vNum 1), ("b", Value.vNum 2)])
        ([] ++ ["a"])).1 =
      fieldsHasKey [("a", Value.vNum 1), ("b", Value.vNum 2)] "a" ∧
    getNestedValue
        (coreDelete (Value.vObj [("a", Value.vNum 1), ("b", Value.vNum 2)])
          ([] ++ ["a"])).2 [] =
      Value.vObj (fieldsDel [("a", Value.vNum 1), ("b", Value.vNum 2)] "a") :=
  c6_delete_returns_existed
    (Value.vObj [("a", Value.vNum 1), ("b", Value.vNum 2)]) [] "a"
    [("a", Value.vNum 1), ("b", Value.vNum 2)] rfl

/-- C7: deleting the root path (the empty segment sequence, which is what
the empty string normalizes to) returns `false` and leaves the entire tree
unchanged, for every store state. -/
theorem c7_delete_root_noop (d : Value) :
    coreDelete d [] = (false, d) ∧ normalizePath "" = [] :=
  ⟨rfl, rfl⟩

/-! ### Character-level lemmas about the regex construction pipeline -/

theorem plainChar_spec {c : Char} (h : plainChar c = true) :
    c ≠ '.' ∧ c ≠ '*' ∧ c ≠ '\\' ∧ c ≠ '[' ∧ c ≠ ']' ∧ c ≠ '^' ∧
    c ≠ '+' ∧ c ≠ '?' ∧ c ≠ '(' ∧ c ≠ ')' ∧ c ≠ '{' ∧ c ≠ '}' ∧
    c ≠ '|' ∧ c ≠ '$' := by
  simp [plainChar] at h
  tauto

theorem escDots_cons_ne (a : Char) (cs : List Char) (h : a ≠ '.') :
    escDots (a :: cs) = a :: escDots cs := by
  simp [escDots, h]

theorem escDots_dot (cs : List Char) :
    escDots ('.' :: cs) = '\\' :: '.' :: escDots cs := by
  simp [escDots]

theorem escDots_append (xs ys : List Char) :
    escDots (xs ++ ys) = escDots xs ++ escDots ys := by
  induction xs with
  | nil => rfl
  | cons a cs ih =>
    by_cases h : a = '.'
    · subst h; simp [escDots_dot, ih]
    · simp [escDots_cons_ne _ _ h, ih]

theorem escDots_id (xs : List Char) (h : ∀ c ∈ xs, c ≠ '.') :
    escDots xs = xs := by
  induction xs with
  | nil => rfl
  | cons a cs ih =>
    rw [escDots_cons_ne a cs (h a (by simp)), ih (fun c hc => h c (by simp [hc]))]

theorem replStarStar_nil : replStarStar [] = [] := rfl

theorem replStarStar_cons_ne (a : Char) (cs : List Char) (h : a ≠ '*') :
    replStarStar (a :: cs) = a :: replStarStar cs := by
  rw [replStarStar.eq_def]
  split
  · rename_i heq
    exact absurd (List.cons_eq_cons.mp heq).1 h
  · rename_i heq
    have h1 := (List.cons_eq_cons.mp heq).1
    have h2 := (List.cons_eq_cons.mp heq).2
    subst h1; subst h2; rfl
  · rename_i heq
    exact absurd heq (by simp)

theorem replStarStar_star_cons_ne (a : Char) (cs : List Char) (h : a ≠ '*') :
    replStarStar ('*' :: a :: cs) = '*' :: a :: replStarStar cs := by
  rw [replStarStar.eq_def]
  split
  · rename_i heq
    have h2 := (List.cons_eq_cons.mp heq).2
    exact absurd (List.cons_eq_cons.mp h2).1 h
  · rename_i heq
    have h1 := (List.cons_eq_cons.mp heq).1
    have h2 := (List.cons_eq_cons.mp heq).2
    subst h1; subst h2
    rw [replStarStar_cons_ne a cs h]
  · rename_i heq
    exact absurd heq (by simp)

theorem replStarStar_noStar_append (xs ys : List Char)
    (h : ∀ c ∈ xs, c ≠ '*') :
    replStarStar (xs ++ ys) = xs ++ replStarStar ys := by
  induction xs with
  | nil => rfl
  | cons a cs ih =>
    rw [List.cons_append, replStarStar_cons_ne a _ (h a (by simp)),
      ih (fun c hc => h c (by simp [hc]))]
    rfl

theorem replStarStar_id (xs : List Char) (h : ∀ c ∈ xs, c ≠ '*') :
    replStarStar xs = xs := by
  have := replStarStar_noStar_append xs [] h
  simpa [replStarStar_nil] using this

theorem replStar_cons_ne (a : Char) (cs : List Char) (h : a ≠ '*') :
    replStar (a :: cs) = a :: replStar cs := by
  simp [replStar, h]

theorem replStar_star (cs : List Char) :
    replStar ('*' :: cs) = '[' :: '^' :: '.' :: ']' :: '+' :: replStar cs := by
  simp [replStar]

theorem replStar_noStar_append (xs ys : List Char) (h : ∀ c ∈ xs, c ≠ '*') :
    replStar (xs ++ ys) = xs ++ replStar ys := by
  induction xs with
  | nil => rfl
  | cons a cs ih =>
    rw [List.cons_append, replStar_cons_ne a _ (h a (by simp)),
      ih (fun c hc => h c (by simp [hc]))]
    rfl

theorem parseAtoms_backslash (c : Char) (cs : List Char) :
    parseAtoms ('\\' :: c :: cs) = .lit c :: parseAtoms cs := by
  simp [parseAtoms]

theorem parseAtoms_class (cs : List Char) :
    parseAtoms ('[' :: '^' :: '.' :: ']' :: '+' :: cs) =
      .nonDotPlus :: parseAtoms cs := rfl

theorem parseAtoms_cons_plain (a : Char) (cs : List Char)
    (h1 : a ≠ '\\') (h2 : a ≠ '[') (h3 : a ≠ '.')
    (h4 : ∀ ds, cs ≠ '+' :: ds) :
    parseAtoms (a :: cs) = .lit a :: parseAtoms cs := by
  rw [parseAtoms.eq_def]
  split
  · rename_i heq
    exact absurd heq (by simp)
  · rename_i heq
    exact absurd (List.cons_eq_cons.mp heq).1 h1
  · rename_i heq
    exact absurd (List.cons_eq_cons.mp heq).1 h2
  · rename_i heq
    exact absurd (List.cons_eq_cons.mp heq).1 h3
  · rename_i heq
    exact absurd (List.cons_eq_cons.mp heq).2 (h4 _)
  · rename_i heq
    have e1 := (List.cons_eq_cons.mp heq).1
    have e2 := (List.cons_eq_cons.mp heq).2
    subst e1; subst e2; rfl

theorem parseAtoms_litmap_append (xs ys : List Char)
    (h : ∀ c ∈ xs, plainChar c = true)
    (hy : ∀ ds, ys ≠ '+' :: ds) :
    parseAtoms (xs ++ ys) = xs.map RAtom.lit ++ parseAtoms ys := by
  induction xs with
  | nil => rfl
  | cons a cs ih =>
    obtain ⟨_, _, hb, hl, _⟩ := plainChar_spec (h a (by simp))
    have hd := (plainChar_spec (h a (by simp))).1
    have hplus : ∀ ds, cs ++ ys ≠ '+' :: ds := by
      intro ds hds
      cases cs with
      | nil => exact hy ds hds
      | cons e cs' =>
        simp only [List.cons_append] at hds
        exact (plainChar_spec (h e (by simp))).2.2.2.2.2.2.1
          (List.cons_eq_cons.mp hds).1
    rw [List.cons_append, parseAtoms_cons_plain a _ hb hl hd hplus,
      ih (fun c hc => h c (by simp [hc]))]
    rfl

theorem parseAtoms_nil : parseAtoms [] = [] := rfl

theorem parseAtoms_litmap (xs : List Char) (h : ∀ c ∈ xs, plainChar c = true) :
    parseAtoms xs = xs.map RAtom.lit := by
  have := parseAtoms_litmap_append xs [] h (fun ds hds => List.noConfusion hds)
  simpa [parseAtoms_nil] using this

theorem replStar_id (xs : List Char) (h : ∀ c ∈ xs, c ≠ '*') :
    replStar xs = xs := by
  have := replStar_noStar_append xs [] h
  simpa [replStar] using this

/-! ### String and join lemmas -/

theorem toList_append (s t : String) :
    (s ++ t).toList = s.toList ++ t.toList := by
  cases s
  cases t
  rfl

theorem joinDots_toList_cons (s t : String) (ts : List String) :
    (joinDots (s :: t :: ts)).toList =
      s.toList ++ '.' :: (joinDots (t :: ts)).toList := by
  rw [show joinDots (s :: t :: ts) = s ++ "." ++ joinDots (t :: ts) from rfl,
    toList_append, toList_append]
  simp

theorem plainSegB_spec {s : String} (h : plainSegB s = true) :
    s.toList ≠ [] ∧ ∀ c ∈ s.toList, plainChar c = true := by
  simp [plainSegB, List.all_eq_true] at h
  exact ⟨fun hn => h.1 hn, h.2⟩

theorem goodKeyB_spec {k : String} (h : goodKeyB k = true) :
    k.toList ≠ [] ∧ ∀ c ∈ k.toList, c ≠ '.' := by
  simp [goodKeyB, List.all_eq_true] at h
  exact ⟨fun hn => h.1 hn, h.2⟩

theorem goodPatB_spec {pats : List String} (h : goodPatB pats = true) :
    ∀ s ∈ pats, s = "*" ∨ plainSegB s = true := by
  simp [goodPatB, List.all_eq_true] at h
  intro s hs
  rcases h s hs with h1 | h2
  · exact Or.inl h1
  · exact Or.inr h2

theorem plainSegB_ne_star {s : String} (h : plainSegB s = true) : s ≠ "*" := by
  intro he
  subst he
  have := (plainSegB_spec h).2 '*' (by decide)
  exact absurd this (by decide)

theorem goodPatB_tail {s : String} {ss : List String}
    (h : goodPatB (s :: ss) = true) : goodPatB ss = true := by
  simp [goodPatB, List.all_eq_true] at h ⊢
  exact h.2

theorem goodPatB_no_deep {pats : List String} (h : goodPatB pats = true) :
    ∀ s ∈ pats, s ≠ "**" := by
  intro s hs he
  subst he
  rcases goodPatB_spec h "**" hs with h1 | h1
  · exact absurd h1 (by decide)
  · exact absurd h1 (by decide)

/-! ### Matching lemmas for compiled well-formed patterns -/

theorem rmatch_lits_append (l : List Char) (as : List RAtom) (s : List Char) :
    rmatch (l.map RAtom.lit ++ as) (l ++ s) = rmatch as s := by
  induction l with
  | nil => rfl
  | cons c cs ih => simp [rmatch, ih]

theorem rmatch_nonDotPlus_append (as : List RAtom) (s : List Char)
    (h : rmatch as s = true) :
    ∀ (k : List Char), k ≠ [] → (∀ c ∈ k, c ≠ '.') →
    rmatch (.nonDotPlus :: as) (k ++ s) = true := by
  intro k
  induction k with
  | nil => intro hne _; exact absurd rfl hne
  | cons c k' ih =>
    intro _ hnd
    cases k' with
    | nil =>
      have hr : rmatch (.nonDotPlus :: as) ([c] ++ s) =
          (decide ¬(c = '.') && (rmatch as s ||
            rmatch (.nonDotPlus :: as) s)) := rfl
      rw [hr, h]
      simp [hnd c (by simp)]
    | cons d k'' =>
      have hrec := ih (by simp) (fun x hx => hnd x (by simp [hx]))
      have hr : rmatch (.nonDotPlus :: as) ((c :: d :: k'') ++ s) =
          (decide ¬(c = '.') && (rmatch as ((d :: k'') ++ s) ||
            rmatch (.nonDotPlus :: as) ((d :: k'') ++ s))) := rfl
      rw [hr, hrec]
      simp [hnd c (by simp)]

theorem rmatch_patAtoms : ∀ (pats ks : List String),
    goodPatB pats = true → SegMatch pats ks →
    rmatch (patAtoms pats) (joinDots ks).toList = true := by
  intro pats
  induction pats with
  | nil =>
    intro ks _ hsm
    cases ks with
    | nil => rfl
    | cons k ks' => exact absurd hsm (by simp [SegMatch])
  | cons p ps ih =>
    intro ks hgp hsm
    cases ks with
    | nil => exact absurd hsm (by simp [SegMatch])
    | cons k ks' =>
      obtain ⟨hhead, htail⟩ : ((p = "*" ∧ goodKeyB k = true) ∨ k = p) ∧
          SegMatch ps ks' := hsm
      cases ps with
      | nil =>
        cases ks' with
        | cons a b => exact absurd htail (by simp [SegMatch])
        | nil =>
          show rmatch (segAtoms p) (joinDots [k]).toList = true
          rcases hhead with ⟨hp, hk⟩ | hkp
          · subst hp
            obtain ⟨h1, h2⟩ := goodKeyB_spec hk
            show rmatch [.nonDotPlus] k.toList = true
            have := rmatch_nonDotPlus_append [] [] rfl k.toList h1 h2
            simpa using this
          · subst hkp
            by_cases hps : k = "*"
            · subst hps; decide
            · rw [show segAtoms k = k.toList.map RAtom.lit from by
                simp [segAtoms, hps]]
              have := rmatch_lits_append k.toList [] []
              simpa using this
      | cons q qs =>
        cases ks' with
        | nil => exact absurd htail (by simp [SegMatch])
        | cons k' ks'' =>
          have hA : patAtoms (p :: q :: qs) =
              segAtoms p ++ RAtom.lit '.' :: patAtoms (q :: qs) := rfl
          rw [hA, joinDots_toList_cons]
          have hIH := ih (k' :: ks'') (goodPatB_tail hgp) htail
          have hdot : rmatch (RAtom.lit '.' :: patAtoms (q :: qs))
              ('.' :: (joinDots (k' :: ks'')).toList) = true := by
            have hr : rmatch (RAtom.lit '.' :: patAtoms (q :: qs))
                ('.' :: (joinDots (k' :: ks'')).toList) =
                (decide ('.' = '.') &&
                  rmatch (patAtoms (q :: qs))
                    (joinDots (k' :: ks'')).toList) := rfl
            rw [hr, hIH]
            rfl
          rcases hhead with ⟨hp, hk⟩ | hkp
          · subst hp
            obtain ⟨h1, h2⟩ := goodKeyB_spec hk
            exact rmatch_nonDotPlus_append _ _ hdot k.toList h1 h2
          · subst hkp
            by_cases hps : k = "*"
            · subst hps
              exact rmatch_nonDotPlus_append _ _ hdot ['*'] (by simp)
                (by decide)
            · rw [show segAtoms k = k.toList.map RAtom.lit from by
                simp [segAtoms, hps], rmatch_lits_append]
              exact hdot

/-! ### Decomposition of the regex construction for well-formed patterns -/

theorem compile_patAtoms : ∀ (pats : List String), goodPatB pats = true →
    compilePattern (joinDots pats).toList = patAtoms pats := by
  intro pats
  induction pats with
  | nil => intro _; rfl
  | cons s ss ih =>
    intro hgp
    cases ss with
    | nil =>
      rcases goodPatB_spec hgp s (by simp) with hs | hs
      · subst hs; rfl
      · obtain ⟨hne, hplain⟩ := plainSegB_spec hs
        have h1 : ∀ c ∈ s.toList, c ≠ '.' :=
          fun c hc => (plainChar_spec (hplain c hc)).1
        have h2 : ∀ c ∈ s.toList, c ≠ '*' :=
          fun c hc => (plainChar_spec (hplain c hc)).2.1
        show compilePattern s.toList = segAtoms s
        unfold compilePattern
        rw [escDots_id _ h1, replStarStar_id _ h2, replStar_id _ h2,
          parseAtoms_litmap _ hplain]
        simp [segAtoms, plainSegB_ne_star hs]
    | cons t ts =>
      have ihs := ih (goodPatB_tail hgp)
      unfold compilePattern at ihs ⊢
      rw [joinDots_toList_cons, escDots_append, escDots_dot]
      rcases goodPatB_spec hgp s (by simp) with hs | hs
      · subst hs
        rw [show escDots (String.toList "*") = ['*'] from rfl]
        rw [show (['*'] : List Char) ++ '\\' :: '.' ::
            escDots (joinDots (t :: ts)).toList =
            '*' :: '\\' :: '.' :: escDots (joinDots (t :: ts)).toList
          from rfl]
        rw [replStarStar_star_cons_ne '\\' _ (by decide),
          replStarStar_cons_ne '.' _ (by decide),
          replStar_star,
          replStar_cons_ne '\\' _ (by decide),
          replStar_cons_ne '.' _ (by decide),
          parseAtoms_class, parseAtoms_backslash, ihs]
        rfl
      · obtain ⟨hne, hplain⟩ := plainSegB_spec hs
        have h1 : ∀ c ∈ s.toList, c ≠ '.' :=
          fun c hc => (plainChar_spec (hplain c hc)).1
        have h2 : ∀ c ∈ s.toList, c ≠ '*' :=
          fun c hc => (plainChar_spec (hplain c hc)).2.1
        have hy : ∀ ds, ('\\' :: '.' ::
            replStar (replStarStar (escDots (joinDots (t :: ts)).toList)))
              ≠ '+' :: ds :=
          fun ds hds => absurd (List.cons_eq_cons.mp hds).1 (by decide)
        rw [escDots_id _ h1,
          show s.toList ++ '\\' :: '.' ::
              escDots (joinDots (t :: ts)).toList =
            s.toList ++ ('\\' :: '.' ::
              escDots (joinDots (t :: ts)).toList) from rfl,
          replStarStar_noStar_append _ _ h2,
          replStarStar_cons_ne '\\' _ (by decide),
          replStarStar_cons_ne '.' _ (by decide),
          replStar_noStar_append _ _ h2,
          replStar_cons_ne '\\' _ (by decide),
          replStar_cons_ne '.' _ (by decide),
          parseAtoms_litmap_append _ _ hplain hy,
          parseAtoms_backslash, ihs]
        have hnes : s ≠ "*" := plainSegB_ne_star hs
        simp [patAtoms, segAtoms, hnes]

/-! ### Soundness of `find`: every result realizes the pattern -/

theorem search_nil_eq (v : Value) (cur : List String) :
    search [] v cur = [joinDots cur] := by
  rw [search.eq_def]

theorem search_cons_eq (part : String) (rest : List String) (v : Value)
    (cur : List String) :
    search (part :: rest) v cur =
      (if part = "*" then
        match v with
        | .vObj fs => searchStar rest fs cur
        | _ => []
      else if part = "**" then
        joinDots cur ::
          (match v with
           | .vObj fs => searchDeep (part :: rest) rest fs cur
           | _ => [])
      else
        match v with
        | .vObj fs => searchExact part rest fs cur
        | _ => []) := by
  rw [search.eq_def]

theorem searchStar_mem : ∀ (fs : List (String × Value)) (rest : List String)
    (cur : List String) (p : String), p ∈ searchStar rest fs cur →
    ∃ k c, (k, c) ∈ fs ∧ p ∈ search rest c (cur ++ [k]) := by
  intro fs
  induction fs with
  | nil =>
    intro rest cur p h
    rw [searchStar.eq_def] at h
    simp at h
  | cons kc fs' ih =>
    intro rest cur p h
    obtain ⟨k, c⟩ := kc
    rw [show searchStar rest ((k, c) :: fs') cur =
        search rest c (cur ++ [k]) ++ searchStar rest fs' cur from by
      rw [searchStar.eq_def]] at h
    rcases List.mem_append.mp h with h1 | h2
    · exact ⟨k, c, by simp, h1⟩
    · obtain ⟨k', c', hm, hp⟩ := ih rest cur p h2
      exact ⟨k', c', by simp [hm], hp⟩

theorem searchExact_mem : ∀ (fs : List (String × Value)) (part : String)
    (rest : List String) (cur : List String) (p : String),
    p ∈ searchExact part rest fs cur →
    ∃ c, (part, c) ∈ fs ∧ p ∈ search rest c (cur ++ [part]) := by
  intro fs
  induction fs with
  | nil =>
    intro part rest cur p h
    rw [searchExact.eq_def] at h
    simp at h
  | cons kc fs' ih =>
    intro part rest cur p h
    obtain ⟨k, c⟩ := kc
    rw [show searchExact part rest ((k, c) :: fs') cur =
        (if k = part then search rest c (cur ++ [part])
         else searchExact part rest fs' cur) from by
      rw [searchExact.eq_def]] at h
    by_cases hk : k = part
    · rw [if_pos hk] at h
      subst hk
      exact ⟨c, by simp, h⟩
    · rw [if_neg hk] at h
      obtain ⟨c', hm, hp⟩ := ih part rest cur p h
      exact ⟨c', by simp [hm], hp⟩

theorem goodKeysFieldsB_mem : ∀ (fs : List (String × Value)) (k : String)
    (c : Value), goodKeysFieldsB fs = true → (k, c) ∈ fs →
    goodKeyB k = true ∧ goodKeysB c = true := by
  intro fs
  induction fs with
  | nil => intro k c _ h; simp at h
  | cons kc fs' ih =>
    intro k c hg hm
    obtain ⟨k', c'⟩ := kc
    rw [show goodKeysFieldsB ((k', c') :: fs') =
        (goodKeyB k' && goodKeysB c' && goodKeysFieldsB fs') from rfl] at hg
    simp only [Bool.and_eq_true] at hg
    rcases List.mem_cons.mp hm with h1 | h2
    · have e1 : k = k' := congrArg Prod.fst h1
      have e2 : c = c' := congrArg Prod.snd h1
      subst e1; subst e2
      exact ⟨hg.1.1, hg.1.2⟩
    · exact ih k c hg.2 h2

theorem sizeOf_mem_fields : ∀ (fs : List (String × Value)) (k : String)
    (c : Value), (k, c) ∈ fs → sizeOf c < sizeOf (Value.vObj fs) := by
  intro fs
  induction fs with
  | nil => intro k c h; simp at h
  | cons kc fs' ih =>
    intro k c hm
    rcases List.mem_cons.mp hm with h1 | h2
    · obtain ⟨k', c'⟩ := kc
      have e2 : c = c' := congrArg Prod.snd h1
      subst e2
      simp
      omega
    · have := ih k c h2
      simp at this ⊢
      omega

theorem search_mem : ∀ (n : Nat) (v : Value), sizeOf v ≤ n →
    ∀ (pats cur : List String) (p : String),
    (∀ s ∈ pats, s ≠ "**") → goodKeysB v = true →
    p ∈ search pats v cur →
    ∃ ks, p = joinDots (cur ++ ks) ∧ SegMatch pats ks := by
  intro n
  induction n using Nat.strong_induction_on with
  | _ n IH =>
    intro v hv pats cur p hnd hgood hmem
    cases pats with
    | nil =>
      rw [search_nil_eq] at hmem
      refine ⟨[], ?_, trivial⟩
      simpa using List.mem_singleton.mp hmem
    | cons part rest =>
      rw [search_cons_eq] at hmem
      by_cases hstar : part = "*"
      · subst hstar
        rw [if_pos rfl] at hmem
        cases v with
        | vObj fs =>
          obtain ⟨k, c, hkc, hmem'⟩ := searchStar_mem fs rest cur p hmem
          have hsz : sizeOf c < n :=
            lt_of_lt_of_le (sizeOf_mem_fields fs k c hkc) hv
          have hgk := goodKeysFieldsB_mem fs k c
            (by rw [show goodKeysB (Value.vObj fs) = goodKeysFieldsB fs
              from rfl] at hgood; exact hgood) hkc
          obtain ⟨ks', hp, hsm⟩ := IH (sizeOf c) hsz c le_rfl rest
            (cur ++ [k]) p (fun s hs => hnd s (by simp [hs])) hgk.2 hmem'
          refine ⟨k :: ks', ?_, Or.inl ⟨rfl, hgk.1⟩, hsm⟩
          rw [hp, List.append_assoc]
          rfl
        | vUndef => simp at hmem
        | vNull => simp at hmem
        | vBool b => simp at hmem
        | vNum m => simp at hmem
        | vStr s => simp at hmem
      · have hdd : part ≠ "**" := hnd part (by simp)
        rw [if_neg hstar, if_neg hdd] at hmem
        cases v with
        | vObj fs =>
          obtain ⟨c, hkc, hmem'⟩ := searchExact_mem fs part rest cur p hmem
          have hsz : sizeOf c < n :=
            lt_of_lt_of_le (sizeOf_mem_fields fs part c hkc) hv
          have hgk := goodKeysFieldsB_mem fs part c
            (by rw [show goodKeysB (Value.vObj fs) = goodKeysFieldsB fs
              from rfl] at hgood; exact hgood) hkc
          obtain ⟨ks', hp, hsm⟩ := IH (sizeOf c) hsz c le_rfl rest
            (cur ++ [part]) p (fun s hs => hnd s (by simp [hs])) hgk.2 hmem'
          refine ⟨part :: ks', ?_, Or.inr rfl, hsm⟩
          rw [hp, List.append_assoc]
          rfl
        | vUndef => simp at hmem
        | vNull => simp at hmem
        | vBool b => simp at hmem
        | vNum m => simp at hmem
        | vStr s => simp at hmem

/-! ### The `.**`-suffix dispatch never fires for well-formed patterns -/

theorem rev_no_starstar : ∀ (pats : List String), goodPatB pats = true →
    ∀ rr, ((joinDots pats).toList).reverse ≠ '*' :: '*' :: rr := by
  intro pats
  induction pats with
  | nil => intro _ rr h; simp [joinDots] at h
  | cons s ss ih =>
    intro hgp rr h
    cases ss with
    | nil =>
      rcases goodPatB_spec hgp s (by simp) with hs | hs
      · subst hs
        have e : ((joinDots ["*"]).toList).reverse = ['*'] := rfl
        rw [e] at h
        simp at h
      · have hmem : '*' ∈ s.toList.reverse := by
          rw [show (joinDots [s]).toList = s.toList from rfl] at h
          rw [h]
          simp
        have hmem' : '*' ∈ s.toList := List.mem_reverse.mp hmem
        have := (plainSegB_spec hs).2 '*' hmem'
        exact absurd this (by decide)
    | cons t ts =>
      rw [joinDots_toList_cons, List.reverse_append, List.reverse_cons] at h
      cases hrB : ((joinDots (t :: ts)).toList).reverse with
      | nil =>
        rw [hrB] at h
        simp at h
      | cons c1 bs1 =>
        cases bs1 with
        | nil =>
          rw [hrB] at h
          simp at h
        | cons c2 bs2 =>
          rw [hrB] at h
          have h' : c1 :: c2 :: (bs2 ++ '.' :: s.toList.reverse) =
              '*' :: '*' :: rr := by
            simpa [List.append_assoc] using h
          obtain ⟨e1, h2⟩ := List.cons_eq_cons.mp h'
          obtain ⟨e2, _⟩ := List.cons_eq_cons.mp h2
          subst e1; subst e2
          exact ih (goodPatB_tail hgp) bs2 hrB

theorem matchesPatternL_default (path pattern : List Char)
    (h : ∀ preRev, pattern.reverse ≠ '*' :: '*' :: '.' :: preRev) :
    matchesPatternL path pattern = rmatch (compilePattern pattern) path := by
  unfold matchesPatternL
  split
  · rename_i heq
    exact absurd heq (h _)
  · rfl

/-! ### Claim C1 -/

/-- C1 counterexample: the two wildcard algorithms do NOT agree.  Over the
store `{b: 1}`, `find("**.b")` returns the paths `""` and `"b"` (the `"**"`
branch of `search` records the current path unconditionally, even though a
pattern segment remains), yet `matchesPattern` rejects both: the pattern
`"**.b"` does not end in `".**"`, so it is compiled by the replacement
chain, whose third replacement also rewrites the `*` introduced for `**`,
yielding the regex `^.[^.]+\.b$`, which matches neither `""` nor `"b"`. -/
theorem c1_counterexample :
    "b" ∈ find (Value.vObj [("b", Value.vNum 1)]) ["**", "b"] ∧
    "" ∈ find (Value.vObj [("b", Value.vNum 1)]) ["**", "b"] ∧
    joinDots ["**", "b"] = "**.b" ∧
    normalizePath "**.b" = ["**", "b"] ∧
    matchesPattern "b" "**.b" = false ∧
    matchesPattern "" "**.b" = false := by
  refine ⟨by decide, by decide, by decide, by decide, by decide, by decide⟩

/-- C1 (amended): discovery and point-match agree on the wildcard fragment
they both implement faithfully: for every pattern whose segments are either
`"*"` or plain non-empty literals (no `"**"`, no dots or stars or JS-regex
metacharacters inside a literal), and every tree whose keys are non-empty
and dot-free, every path string returned by `find` satisfies
`matchesPattern` against the dot-join of that pattern.  For patterns
containing `"**"` the two algorithms disagree (see the counterexample). -/
theorem c1_find_agrees_with_matchesPattern (v : Value) (pats : List String)
    (hp : goodPatB pats = true) (hv : goodKeysB v = true)
    (p : String) (hmem : p ∈ find v pats) :
    matchesPattern p (joinDots pats) = true := by
  have hmem' : p ∈ search pats v [] := hmem
  obtain ⟨ks, hpeq, hsm⟩ := search_mem (sizeOf v) v le_rfl pats [] p
    (goodPatB_no_deep hp) hv hmem'
  unfold matchesPattern
  rw [matchesPatternL_default _ _ (fun preRev h =>
    rev_no_starstar pats hp ('.' :: preRev) h)]
  rw [compile_patAtoms pats hp, hpeq]
  exact rmatch_patAtoms pats ks hp hsm

/-- C1 witness: concrete instance of the amended agreement over the README
scenario store `{users: {0: {name: "A"}, 1: {name: "B"}}}` with pattern
`users.*.name`. -/
theorem c1_find_agrees_witness :
    matchesPattern "users.0.name" (joinDots ["users", "*", "name"]) = true :=
  c1_find_agrees_with_matchesPattern
    (Value.vObj [("users", Value.vObj
      [("0", Value.vObj [("name", Value.vStr "A")]),
       ("1", Value.vObj [("name", Value.vStr "B")])])])
    ["users", "*", "name"] (by decide) (by decide) "users.0.name" (by decide)

/-! ### Claim C3 -/

theorem setNestedValue_cons_cons (fs : List (String × Value)) (k k' : String)
    (rest : List String) (x : Value) :
    setNestedValue (.vObj fs) (k :: k' :: rest) x =
      .vObj (fieldsSet fs k (setNestedValue
        (match fieldsGet fs k with
         | some c => if c.isObjLike then c else Value.vObj []
         | none => Value.vObj []) (k' :: rest) x)) := rfl

/-- A set at a non-empty path on an object produces an object. -/
theorem setNestedValue_obj_shape (gs : List (String × Value))
    (p : List String) (v : Value) (hp : p ≠ []) :
    ∃ hs, setNestedValue (.vObj gs) p v = .vObj hs := by
  cases p with
  | nil => exact absurd rfl hp
  | cons k rest =>
    cases rest with
    | nil => exact ⟨_, rfl⟩
    | cons k' rest' => exact ⟨_, rfl⟩

/-- Setting a fully existing non-empty path and then re-setting the old
value read beforehand restores the tree exactly (nothing was coerced, no
key was created, so the two assignments are inverse). -/
theorem coreSet_coreSet_restore : ∀ (p : List String) (d v : Value),
    p ≠ [] → existsPath d p = true →
    coreSet (coreSet d p v) p (getNestedValue d p) = d := by
  intro p
  induction p with
  | nil => intro d v h _; exact absurd rfl h
  | cons k rest ih =>
    intro d v _ hex
    cases d with
    | vObj fs =>
      rw [show existsPath (Value.vObj fs) (k :: rest) =
        (match fieldsGet fs k with
         | some c => existsPath c rest
         | none => false) from rfl] at hex
      cases hg : fieldsGet fs k with
      | none => rw [hg] at hex; exact absurd hex (by simp)
      | some c =>
        rw [hg] at hex
        have hgv : getNestedValue (Value.vObj fs) (k :: rest) =
            getNestedValue c rest := by
          rw [getNestedValue_obj_cons, hg]; rfl
        cases rest with
        | nil =>
          show coreSet (Value.vObj (fieldsSet fs k v)) [k]
            (getNestedValue (Value.vObj fs) [k]) = Value.vObj fs
          rw [hgv]
          show Value.vObj (fieldsSet (fieldsSet fs k v) k c) = Value.vObj fs
          rw [fieldsSet_fieldsSet_cancel fs k v c hg]
        | cons k' rest' =>
          cases c with
          | vObj gs =>
            obtain ⟨hs, hX⟩ := setNestedValue_obj_shape gs (k' :: rest') v
              (by simp)
            have hstep1 : coreSet (Value.vObj fs) (k :: k' :: rest') v =
                Value.vObj (fieldsSet fs k
                  (setNestedValue (Value.vObj gs) (k' :: rest') v)) := by
              show setNestedValue (Value.vObj fs) (k :: k' :: rest') v = _
              rw [setNestedValue_cons_cons, hg]
              rfl
            rw [hstep1, hgv]
            have hstep2 :
                coreSet (Value.vObj (fieldsSet fs k
                    (setNestedValue (Value.vObj gs) (k' :: rest') v)))
                  (k :: k' :: rest')
                  (getNestedValue (Value.vObj gs) (k' :: rest')) =
                Value.vObj (fieldsSet
                  (fieldsSet fs k
                    (setNestedValue (Value.vObj gs) (k' :: rest') v)) k
                  (setNestedValue
                    (setNestedValue (Value.vObj gs) (k' :: rest') v)
                    (k' :: rest')
                    (getNestedValue (Value.vObj gs) (k' :: rest')))) := by
              show setNestedValue _ _ _ = _
              rw [setNestedValue_cons_cons, fieldsGet_fieldsSet]
              rw [hX]
              rfl
            rw [hstep2]
            have hinner := ih (Value.vObj gs) v (by simp) hex
            rw [show coreSet (coreSet (Value.vObj gs) (k' :: rest') v)
                (k' :: rest')
                (getNestedValue (Value.vObj gs) (k' :: rest')) =
              setNestedValue (setNestedValue (Value.vObj gs) (k' :: rest') v)
                (k' :: rest')
                (getNestedValue (Value.vObj gs) (k' :: rest')) from rfl]
              at hinner
            rw [hinner, fieldsSet_fieldsSet_cancel fs k _ _ hg]
          | vUndef => simp [existsPath] at hex
          | vNull => simp [existsPath] at hex
          | vBool b => simp [existsPath] at hex
          | vNum n => simp [existsPath] at hex
          | vStr s => simp [existsPath] at hex
    | vUndef => simp [existsPath] at hex
    | vNull => simp [existsPath] at hex
    | vBool b => simp [existsPath] at hex
    | vNum n => simp [existsPath] at hex
    | vStr s => simp [existsPath] at hex

/-- Reverse-order replay of the recorded operations of a safe run of sets
restores the initial tree. -/
theorem recorded_undo : ∀ (ps : List (List String × Value)) (d : Value),
    safeSetsB d ps = true →
    rollbackOps (applyData d ps) (recordedOps d ps) = d := by
  intro ps
  induction ps with
  | nil => intro d _; rfl
  | cons pv ps' ih =>
    intro d hs
    obtain ⟨p, v⟩ := pv
    rw [show safeSetsB d ((p, v) :: ps') =
      (!p.isEmpty && existsPath d p && safeSetsB (coreSet d p v) ps')
      from rfl] at hs
    simp only [Bool.and_eq_true] at hs
    obtain ⟨⟨hne, hex⟩, hrest⟩ := hs
    have hpne : p ≠ [] := by
      cases p with
      | nil => simp at hne
      | cons a b => simp
    show rollbackOps (applyData (coreSet d p v) ps')
      (⟨.tset, p, v, getNestedValue d p⟩ ::
        recordedOps (coreSet d p v) ps') = d
    rw [show rollbackOps (applyData (coreSet d p v) ps')
        (⟨.tset, p, v, getNestedValue d p⟩ ::
          recordedOps (coreSet d p v) ps') =
      undoOp (rollbackOps (applyData (coreSet d p v) ps')
        (recordedOps (coreSet d p v) ps'))
        ⟨.tset, p, v, getNestedValue d p⟩ from rfl]
    rw [ih (coreSet d p v) hrest]
    show coreSet (coreSet d p v) p (getNestedValue d p) = d
    exact coreSet_coreSet_restore p d v hpne hex

/-- Running sets through the journaled store with a transaction open only
mutates the tree and appends the buffered operation records. -/
theorem applyTxnSets_char : ∀ (ps : List (List String × Value)) (d : Value)
    (j : List JEntry) (e : Bool) (m : Nat) (tid : Nat) (tops : List TxOp)
    (tts now : Nat),
    applyTxnSets now ⟨d, j, e, m, some ⟨tid, tops, tts⟩⟩ ps =
      ⟨applyData d ps, j, e, m,
        some ⟨tid, tops ++ recordedOps d ps, tts⟩⟩ := by
  intro ps
  induction ps with
  | nil =>
    intro d j e m tid tops tts now
    show (⟨d, j, e, m, some ⟨tid, tops, tts⟩⟩ : JStore) = _
    rw [show recordedOps d [] = [] from rfl, List.append_nil]
    rfl
  | cons pv ps' ih =>
    intro d j e m tid tops tts now
    obtain ⟨p, v⟩ := pv
    show applyTxnSets now
      ((jset ⟨d, j, e, m, some ⟨tid, tops, tts⟩⟩ now p v
        defaultOpts).2) ps' = _
    have hj : (jset (⟨d, j, e, m, some ⟨tid, tops, tts⟩⟩ : JStore) now p v
        defaultOpts).2 =
        ⟨coreSet d p v, j, e, m,
          some ⟨tid,
            tops ++ [⟨.tset, p, v, getNestedValue d p⟩], tts⟩⟩ := rfl
    rw [hj, ih]
    rw [show applyData d ((p, v) :: ps') =
      applyData (coreSet d p v) ps' from rfl]
    rw [show recordedOps d ((p, v) :: ps') =
      ⟨.tset, p, v, getNestedValue d p⟩ ::
        recordedOps (coreSet d p v) ps' from rfl]
    rw [List.append_assoc]
    rfl

/-- C3 counterexample: rollback is NOT a full undo.  With the store
`{a: 5}`, the transaction performs `set("a.b", 1)`, which coerces the
scalar `5` into an object.  The buffered op records old value `undefined`
(reading `"a.b"` through the scalar), so rollback re-sets `"a.b"` to
`undefined`, leaving `{a: {b: undefined}}`: `get("a")` returns
`{b: undefined}` after rollback instead of the pre-transaction `5`. -/
theorem c3_rollback_counterexample :
    beginTransaction
        ⟨Value.vObj [("a", Value.vNum 5)], [], true, 1000, none⟩ 0 =
      .ok (⟨0, [], 0⟩,
        ⟨Value.vObj [("a", Value.vNum 5)], [], true, 1000,
          some ⟨0, [], 0⟩⟩) ∧
    rollbackTransaction
        (jset ⟨Value.vObj [("a", Value.vNum 5)], [], true, 1000,
          some ⟨0, [], 0⟩⟩ 0 ["a", "b"] (Value.vNum 1) defaultOpts).2 =
      .ok (true,
        ⟨Value.vObj [("a", Value.vObj [("b", Value.vUndef)])], [], true,
          1000, none⟩) ∧
    getNestedValue (Value.vObj [("a", Value.vNum 5)]) ["a"] =
      Value.vNum 5 ∧
    getNestedValue (Value.vObj [("a", Value.vObj [("b", Value.vUndef)])])
        ["a"] ≠ Value.vNum 5 := by
  refine ⟨rfl, rfl, rfl, ?_⟩
  intro h
  exact Value.noConfusion h

/-- C3 (amended): rollback replays the buffered operations in reverse
order, re-setting each `set` op's path to its recorded old value (and each
`delete` op's path when its old value is not absent); this fully restores
the pre-transaction state whenever every buffered operation is a `set`
whose (non-empty) path fully existed when it ran — so nothing was coerced
and no key was created.  Operations that create paths or overwrite through
scalars leave residue (see the counterexample). -/
theorem c3_rollback_restores (d : Value) (j : List JEntry) (e : Bool)
    (m now : Nat) (ps : List (List String × Value))
    (hsafe : safeSetsB d ps = true) :
    beginTransaction ⟨d, j, e, m, none⟩ now =
      .ok (⟨now, [], now⟩, ⟨d, j, e, m, some ⟨now, [], now⟩⟩) ∧
    rollbackTransaction
        (applyTxnSets now ⟨d, j, e, m, some ⟨now, [], now⟩⟩ ps) =
      .ok (true, ⟨d, j, e, m, none⟩) := by
  refine ⟨rfl, ?_⟩
  rw [applyTxnSets_char ps d j e m now [] now now, List.nil_append]
  show Except.ok (true,
    (⟨rollbackOps (applyData d ps) (recordedOps d ps), j, e, m,
      none⟩ : JStore)) =
    Except.ok (true, (⟨d, j, e, m, none⟩ : JStore))
  rw [recorded_undo ps d hsafe]

/-- C3 witness: a concrete safe transaction (overwriting the existing key
`"x"`) is fully undone by rollback. -/
theorem c3_rollback_restores_witness :
    beginTransaction
        ⟨Value.vObj [("x", Value.vNum 1)], [], true, 1000, none⟩ 5 =
      .ok (⟨5, [], 5⟩,
        ⟨Value.vObj [("x", Value.vNum 1)], [], true, 1000,
          some ⟨5, [], 5⟩⟩) ∧
    rollbackTransaction
        (applyTxnSets 5
          ⟨Value.vObj [("x", Value.vNum 1)], [], true, 1000,
            some ⟨5, [], 5⟩⟩
          [(["x"], Value.vNum 2)]) =
      .ok (true, ⟨Value.vObj [("x", Value.vNum 1)], [], true, 1000,
        none⟩) :=
  c3_rollback_restores (Value.vObj [("x", Value.vNum 1)]) [] true 1000 5
    [(["x"], Value.vNum 2)] (by decide)


/-! ### Claim C8 -/

theorem addJournalEntry_journal (s : JStore) (e : JEntry)
    (hen : s.journalEnabled = true) :
    (addJournalEntry s e).journal =
      (s.journal ++ [e]).drop ((s.journal ++ [e]).length -
        s.maxJournalEntries) := by
  obtain ⟨d, j0, en, m, ct⟩ := s
  simp only at hen ⊢
  subst hen
  show (if (j0 ++ [e]).length > m then
      (⟨d, (j0 ++ [e]).drop ((j0 ++ [e]).length - m), true, m, ct⟩ : JStore)
    else ⟨d, j0 ++ [e], true, m, ct⟩).journal =
    (j0 ++ [e]).drop ((j0 ++ [e]).length - m)
  split
  · rfl
  · rename_i hle
    have hz : (j0 ++ [e]).length - m = 0 := by omega
    rw [hz, List.drop_zero]

theorem addJournalEntry_enabled (s : JStore) (e : JEntry) :
    (addJournalEntry s e).journalEnabled = s.journalEnabled := by
  obtain ⟨d, j0, en, m, ct⟩ := s
  cases en with
  | false => rfl
  | true =>
    show (if (j0 ++ [e]).length > m then
        (⟨d, (j0 ++ [e]).drop ((j0 ++ [e]).length - m), true, m, ct⟩ :
          JStore)
      else ⟨d, j0 ++ [e], true, m, ct⟩).journalEnabled = true
    split <;> rfl

theorem addJournalEntry_max (s : JStore) (e : JEntry) :
    (addJournalEntry s e).maxJournalEntries = s.maxJournalEntries := by
  obtain ⟨d, j0, en, m, ct⟩ := s
  cases en with
  | false => rfl
  | true =>
    show (if (j0 ++ [e]).length > m then
        (⟨d, (j0 ++ [e]).drop ((j0 ++ [e]).length - m), true, m, ct⟩ :
          JStore)
      else ⟨d, j0 ++ [e], true, m, ct⟩).maxJournalEntries = m
    split <;> rfl

/-- Dropping to the last `m` elements before appending more and dropping
again is the same as dropping once at the end. -/
theorem drop_trim_absorb (a b : List JEntry) (m : Nat) :
    (a.drop (a.length - m) ++ b).drop
      ((a.drop (a.length - m) ++ b).length - m) =
    (a ++ b).drop ((a ++ b).length - m) := by
  have h1 : (a ++ b).drop (a.length - m) = a.drop (a.length - m) ++ b := by
    rw [List.drop_append_eq_append_drop]
    have he : a.length - m - a.length = 0 := by omega
    rw [he, List.drop_zero]
  rw [← h1, List.drop_drop]
  congr 1
  simp only [List.length_append, List.length_drop]
  omega

theorem journal_fold (es : List JEntry) : ∀ (s : JStore),
    s.journalEnabled = true →
    s.journal.length ≤ s.maxJournalEntries →
    (es.foldl addJournalEntry s).journal =
      (s.journal ++ es).drop
        ((s.journal ++ es).length - s.maxJournalEntries) ∧
    (es.foldl addJournalEntry s).journalEnabled = true ∧
    (es.foldl addJournalEntry s).maxJournalEntries =
      s.maxJournalEntries := by
  induction es with
  | nil =>
    intro s hen hinv
    refine ⟨?_, hen, rfl⟩
    have hz : (s.journal ++ []).length - s.maxJournalEntries = 0 := by
      simp only [List.append_nil]
      omega
    rw [hz, List.drop_zero, List.append_nil]
    rfl
  | cons e es' ih =>
    intro s hen hinv
    have h1 := addJournalEntry_journal s e hen
    have h2 := addJournalEntry_enabled s e
    have h3 := addJournalEntry_max s e
    have hinv1 : (addJournalEntry s e).journal.length ≤
        (addJournalEntry s e).maxJournalEntries := by
      rw [h1, h3, List.length_drop]
      omega
    obtain ⟨hj, hb, hm⟩ := ih (addJournalEntry s e) (by rw [h2]; exact hen)
      hinv1
    refine ⟨?_, hb, ?_⟩
    · rw [show (e :: es').foldl addJournalEntry s =
        es'.foldl addJournalEntry (addJournalEntry s e) from rfl]
      rw [hj, h1, h3, drop_trim_absorb (s.journal ++ [e]) es'
        s.maxJournalEntries]
      rw [List.append_assoc]
      rfl
    · show (List.foldl addJournalEntry (addJournalEntry s e)
        es').maxJournalEntries = s.maxJournalEntries
      rw [hm, h3]

/-- C8: the journal is bounded.  Folding any sequence of appends over a
store whose journal respects the bound (journaling enabled, bound at least
1 as the constructor guarantees): (1) the journal afterwards is exactly the
most recent `maxJournalEntries`-suffix of (old journal ++ appended entries)
in order; (2) the length never exceeds the bound; (3) once at least
`maxJournalEntries` entries have passed through (N+k appends against bound
N), `getJournal()` has exactly `maxJournalEntries` entries. -/
theorem c8_journal_bound (s : JStore) (es : List JEntry)
    (hen : s.journalEnabled = true) (hmax : 0 < s.maxJournalEntries)
    (hinv : s.journal.length ≤ s.maxJournalEntries) :
    getJournal (es.foldl addJournalEntry s) =
      (s.journal ++ es).drop
        ((s.journal ++ es).length - s.maxJournalEntries) ∧
    (getJournal (es.foldl addJournalEntry s)).length ≤
      s.maxJournalEntries ∧
    (s.maxJournalEntries ≤ s.journal.length + es.length →
      (getJournal (es.foldl addJournalEntry s)).length =
        s.maxJournalEntries) := by
  obtain ⟨hj, _, _⟩ := journal_fold es s hen hinv
  have hlen : (getJournal (es.foldl addJournalEntry s)).length =
      (s.journal ++ es).length -
        ((s.journal ++ es).length - s.maxJournalEntries) := by
    rw [show getJournal (es.foldl addJournalEntry s) =
      (es.foldl addJournalEntry s).journal from rfl, hj, List.length_drop]
  refine ⟨hj, ?_, ?_⟩
  · rw [hlen]; omega
  · intro hge
    rw [hlen]
    simp only [List.length_append] at hge ⊢
    omega

/-- C8 witness: bound 2, three appended entries — the journal keeps exactly
the two most recent entries, in order. -/
theorem c8_journal_bound_witness :
    getJournal (([⟨.jset, some ["a"], some (Value.vNum 1),
        some Value.vUndef, 0, none, none, none, none⟩,
      ⟨.jset, some ["b"], some (Value.vNum 2), some Value.vUndef, 1, none,
        none, none, none⟩,
      ⟨.jset, some ["c"], some (Value.vNum 3), some Value.vUndef, 2, none,
        none, none, none⟩] : List JEntry).foldl addJournalEntry
        ⟨Value.vObj [], [], true, 2, none⟩) =
      (([] : List JEntry) ++
        ([⟨.jset, some ["a"], some (Value.vNum 1), some Value.vUndef, 0,
          none, none, none, none⟩,
        ⟨.jset, some ["b"], some (Value.vNum 2), some Value.vUndef, 1,
          none, none, none, none⟩,
        ⟨.jset, some ["c"], some (Value.vNum 3), some Value.vUndef, 2,
          none, none, none, none⟩] : List JEntry)).drop
        ((([] : List JEntry) ++
          ([⟨.jset, some ["a"], some (Value.vNum 1), some Value.vUndef, 0,
            none, none, none, none⟩,
          ⟨.jset, some ["b"], some (Value.vNum 2), some Value.vUndef, 1,
            none, none, none, none⟩,
          ⟨.jset, some ["c"], some (Value.vNum 3), some Value.vUndef, 2,
            none, none, none, none⟩] : List JEntry)).length - 2) ∧
    (getJournal (([⟨.jset, some ["a"], some (Value.vNum 1),
        some Value.vUndef, 0, none, none, none, none⟩,
      ⟨.jset, some ["b"], some (Value.vNum 2), some Value.vUndef, 1, none,
        none, none, none⟩,
      ⟨.jset, some ["c"], some (Value.vNum 3), some Value.vUndef, 2, none,
        none, none, none⟩] : List JEntry).foldl addJournalEntry
        ⟨Value.vObj [], [], true, 2, none⟩)).length = 2 := by
  have h := c8_journal_bound ⟨Value.vObj [], [], true, 2, none⟩
    ([⟨.jset, some ["a"], some (Value.vNum 1), some Value.vUndef, 0, none,
        none, none, none⟩,
      ⟨.jset, some ["b"], some (Value.vNum 2), some Value.vUndef, 1, none,
        none, none, none⟩,
      ⟨.jset, some ["c"], some (Value.vNum 3), some Value.vUndef, 2, none,
        none, none, none⟩] : List JEntry) rfl (by decide) (by decide)
  exact ⟨h.1, h.2.2 (by decide)⟩

/-! ### Claim C9 -/

/-- C9 counterexample: a silent `set` at the ROOT path does not make
`get(root)` return the written value — root writes are a no-op (the same
defect as in C2), although no callback fires.  The claim quantifies over
every path, so it fails at the root. -/
theorem c9_silent_root_counterexample :
    oset ⟨Value.vObj [], []⟩ [] (Value.vNum 1) ⟨true, true⟩ =
      (true, ⟨Value.vObj [], []⟩, []) ∧
    getNestedValue (Value.vObj []) [] ≠ Value.vNum 1 :=
  ⟨rfl, fun h => Value.noConfusion h⟩

/-- C9 (amended): for every NON-EMPTY path `p`, every value, and every set
of registered subscriptions, `set(p, v, {silent: true})` returns `true`,
updates the store so that `get(p)` returns `v`, and invokes no subscriber
callback; for the root path it invokes no callback either, but leaves the
store unchanged. -/
theorem c9_silent_set (fs : List (String × Value))
    (subs : List (String × List Nat)) (path : List String) (v : Value)
    (hp : path ≠ []) :
    (oset ⟨Value.vObj fs, subs⟩ path v ⟨true, true⟩).1 = true ∧
    getNestedValue
      (oset ⟨Value.vObj fs, subs⟩ path v ⟨true, true⟩).2.1.store path = v ∧
    (oset ⟨Value.vObj fs, subs⟩ path v ⟨true, true⟩).2.2 = [] := by
  refine ⟨rfl, ?_, rfl⟩
  show getNestedValue (coreSet (Value.vObj fs) path v) path = v
  exact getNestedValue_setNestedValue path fs v hp

/-- C9 witness: concrete silent write. -/
theorem c9_silent_set_witness :
    (oset ⟨Value.vObj [], [("user.*", [3])]⟩ ["user", "name"]
      (Value.vStr "John") ⟨true, true⟩).1 = true ∧
    getNestedValue (oset ⟨Value.vObj [], [("user.*", [3])]⟩
      ["user", "name"] (Value.vStr "John")
      ⟨true, true⟩).2.1.store ["user", "name"] = Value.vStr "John" ∧
    (oset ⟨Value.vObj [], [("user.*", [3])]⟩ ["user", "name"]
      (Value.vStr "John") ⟨true, true⟩).2.2 = [] :=
  c9_silent_set [] [("user.*", [3])] ["user", "name"]
    (Value.vStr "John") (by simp)

/-! ### Claim C10 -/

theorem escDots_noStar (l : List Char) (h : ∀ c ∈ l, c ≠ '*') :
    ∀ c ∈ escDots l, c ≠ '*' := by
  induction l with
  | nil => intro c hc; simp [escDots] at hc
  | cons a cs ih =>
    intro c hc
    by_cases ha : a = '.'
    · subst ha
      rw [escDots_dot] at hc
      simp only [List.mem_cons] at hc
      rcases hc with h1 | h1 | h1
      · subst h1; decide
      · subst h1; decide
      · exact ih (fun x hx => h x (by simp [hx])) c h1
    · rw [escDots_cons_ne a cs ha] at hc
      simp only [List.mem_cons] at hc
      rcases hc with h1 | h1
      · subst h1; exact h c (by simp)
      · exact ih (fun x hx => h x (by simp [hx])) c h1

theorem escDots_ne_plus_head (l : List Char)
    (h : ∀ c ∈ l, c = '.' ∨ plainChar c = true) :
    ∀ ds, escDots l ≠ '+' :: ds := by
  intro ds hds
  cases l with
  | nil => exact List.noConfusion hds
  | cons a cs =>
    rcases h a (by simp) with ha | ha
    · subst ha
      rw [escDots_dot] at hds
      exact absurd (List.cons_eq_cons.mp hds).1 (by decide)
    · rw [escDots_cons_ne a cs (plainChar_spec ha).1] at hds
      exact (plainChar_spec ha).2.2.2.2.2.2.1 (List.cons_eq_cons.mp hds).1

theorem parseAtoms_escDots_dotted (l : List Char)
    (h : ∀ c ∈ l, c = '.' ∨ plainChar c = true) :
    parseAtoms (escDots l) = l.map RAtom.lit := by
  induction l with
  | nil => rfl
  | cons a cs ih =>
    rcases h a (by simp) with ha | ha
    · subst ha
      rw [escDots_dot, parseAtoms_backslash,
        ih (fun x hx => h x (by simp [hx]))]
      rfl
    · obtain ⟨hd, _, hb, hl, _⟩ := plainChar_spec ha
      rw [escDots_cons_ne a cs hd, parseAtoms_cons_plain a _ hb hl hd
          (escDots_ne_plus_head cs (fun x hx => h x (by simp [hx]))),
        ih (fun x hx => h x (by simp [hx]))]
      rfl

theorem rmatch_lits_eq (l : List Char) : ∀ (s : List Char),
    rmatch (l.map RAtom.lit) s = true → s = l := by
  induction l with
  | nil =>
    intro s h
    cases s with
    | nil => rfl
    | cons d s' => simp [rmatch] at h
  | cons c cs ih =>
    intro s h
    cases s with
    | nil => simp [rmatch] at h
    | cons d s' =>
      have h' : (decide (c = d) && rmatch (cs.map RAtom.lit) s') = true := h
      simp only [Bool.and_eq_true, decide_eq_true_eq] at h'
      rw [ih s' h'.2, h'.1]

theorem strHasStar_false_spec {pat : String}
    (h : strHasStar pat = false) : ∀ c ∈ pat.toList, c ≠ '*' := by
  intro c hc he
  subst he
  simp [strHasStar] at h
  exact h hc

/-- A star-free pattern made of dots and plain characters point-matches a
path only if the path IS the pattern. -/
theorem starless_match_eq (pat q : String)
    (hstar : strHasStar pat = false)
    (hplain : ∀ ch ∈ pat.toList, ch = '.' ∨ plainChar ch = true)
    (hm : matchesPattern q pat = true) : q = pat := by
  have hns := strHasStar_false_spec hstar
  have hdispatch : ∀ preRev,
      pat.toList.reverse ≠ '*' :: '*' :: '.' :: preRev := by
    intro preRev he
    have : '*' ∈ pat.toList.reverse := by rw [he]; simp
    exact hns '*' (List.mem_reverse.mp this) rfl
  unfold matchesPattern at hm
  rw [matchesPatternL_default _ _ hdispatch] at hm
  unfold compilePattern at hm
  rw [replStarStar_id _ (escDots_noStar _ hns),
    replStar_id _ (escDots_noStar _ hns),
    parseAtoms_escDots_dotted _ hplain] at hm
  have := rmatch_lits_eq pat.toList q.toList hm
  cases q
  cases pat
  exact congrArg String.mk (by simpa using this)

/-- Reduction of a successful non-silent `delete` to its notification
list. -/
theorem odelete_notify (s : OStore) (path : List String)
    (hdel : (coreDelete s.store path).1 = true) :
    (odelete s path defaultOpts).2.2 =
      notifySubscribers s.subscribers path .vUndef
        (getNestedValue s.store path) := by
  show (if (coreDelete s.store path).1 && !(defaultOpts.silent) then
      ((coreDelete s.store path).1,
        ({ s with store := (coreDelete s.store path).2 } : OStore),
        notifySubscribers s.subscribers path .vUndef
          (getNestedValue s.store path))
    else ((coreDelete s.store path).1,
      { s with store := (coreDelete s.store path).2 }, [])).2.2 =
    notifySubscribers s.subscribers path .vUndef
      (getNestedValue s.store path)
  rw [hdel]
  rfl

/-- C10 counterexample: the subscriber filter of `notifySubscribers` is
narrower than point-matching.  The star-free pattern `"a+b"` survives the
replacement pipeline unchanged and compiles to the regular expression
`^a+b$`, which matches the path `"aab"` — so a callback registered under
`"a+b"` point-matches the deleted path `"aab"`.  But `notifySubscribers`
only fires a subscriber on exact path-string equality or when the
subscription pattern contains `'*'`, so deleting `"aab"` (successful,
non-silent, key present) invokes no callback at all.  This refutes the
claim as stated. -/
theorem c10_counterexample :
    matchesPattern (joinDots ["aab"]) "a+b" = true ∧
    strHasStar "a+b" = false ∧
    (coreDelete (Value.vObj [("aab", Value.vNum 1)]) ["aab"]).1 = true ∧
    defaultOpts.silent = false ∧
    (odelete ⟨Value.vObj [("aab", Value.vNum 1)], [("a+b", [0])]⟩
      ["aab"] defaultOpts).2.2 = [] := by
  exact ⟨by decide, by decide, by decide, rfl, rfl⟩

/-- C10 (amended): for every successful non-silent delete on the observable
layer, each callback registered under a pattern OVER THE DOCUMENTED GRAMMAR
ALPHABET (dots, stars and plain characters — no other JS-regex
metacharacters) that point-matches the deleted path is invoked with
`newValue = undefined` and `oldValue` equal to the value `get` returned
immediately before the deletion.  Outside that alphabet the claim is false:
a star-free pattern such as `"a+b"` can point-match a path it does not
equal, and its subscriber is then skipped (see the counterexample). -/
theorem c10_delete_notifies (st : Value)
    (subs : List (String × List Nat)) (path : List String) (pat : String)
    (cbs : List Nat) (c : Nat)
    (hmem : (pat, cbs) ∈ subs) (hc : c ∈ cbs)
    (hplain : ∀ ch ∈ pat.toList,
      ch = '.' ∨ ch = '*' ∨ plainChar ch = true)
    (hmatch : matchesPattern (joinDots path) pat = true)
    (hdel : (coreDelete st path).1 = true) :
    (⟨c, Value.vUndef, getNestedValue st path, path⟩ : Call) ∈
      (odelete ⟨st, subs⟩ path defaultOpts).2.2 := by
  rw [odelete_notify ⟨st, subs⟩ path hdel]
  show (⟨c, Value.vUndef, getNestedValue st path, path⟩ : Call) ∈
    (subs.map (fun pr =>
      if pr.1 == joinDots path ||
          (strHasStar pr.1 && matchesPattern (joinDots path) pr.1) then
        pr.2.map (fun cb =>
          (⟨cb, Value.vUndef, getNestedValue st path, path⟩ : Call))
      else [])).flatten
  refine List.mem_flatten.mpr ⟨_, List.mem_map_of_mem _ hmem, ?_⟩
  have hcond : (pat == joinDots path ||
      (strHasStar pat && matchesPattern (joinDots path) pat)) = true := by
    by_cases hstar : strHasStar pat = true
    · simp [hstar, hmatch]
    · have hstar' : strHasStar pat = false := by
        cases he : strHasStar pat
        · rfl
        · exact absurd he hstar
      have hplain' : ∀ ch ∈ pat.toList, ch = '.' ∨ plainChar ch = true := by
        intro ch hch
        rcases hplain ch hch with h1 | h1 | h1
        · exact Or.inl h1
        · exact absurd h1 (strHasStar_false_spec hstar' ch hch)
        · exact Or.inr h1
      have := starless_match_eq pat (joinDots path) hstar' hplain' hmatch
      simp [this]
  show (⟨c, Value.vUndef, getNestedValue st path, path⟩ : Call) ∈
    (if pat == joinDots path ||
        (strHasStar pat && matchesPattern (joinDots path) pat) then
      cbs.map (fun cb =>
        (⟨cb, Value.vUndef, getNestedValue st path, path⟩ : Call))
    else [])
  rw [hcond, if_pos rfl]
  exact List.mem_map_of_mem _ hc

/-! ### Claim C5 -/

theorem cloneFold_ext (f : Nat)
    (hext : ∀ (h : Heap) (v : HVal), ∃ d, (cloneH f h v).2 = h ++ d) :
    ∀ (o : HObj) (A : HObj) (h : Heap),
    ∃ d, (o.foldl (fun acc kv =>
      let rv := cloneH f acc.2 kv.2
      (acc.1 ++ [(kv.1, rv.1)], rv.2)) (A, h)).2 = h ++ d := by
  intro o
  induction o with
  | nil => intro A h; exact ⟨[], by simp⟩
  | cons kv o' ih =>
    intro A h
    obtain ⟨d1, hd1⟩ := hext h kv.2
    obtain ⟨d2, hd2⟩ := ih (A ++ [(kv.1, (cloneH f h kv.2).1)])
      ((cloneH f h kv.2).2)
    refine ⟨d1 ++ d2, ?_⟩
    show (o'.foldl (fun acc kv =>
      let rv := cloneH f acc.2 kv.2
      (acc.1 ++ [(kv.1, rv.1)], rv.2))
      (A ++ [(kv.1, (cloneH f h kv.2).1)], (cloneH f h kv.2).2)).2 =
      h ++ (d1 ++ d2)
    rw [hd2, hd1, List.append_assoc]

/-- `structuredClone` only appends to the heap. -/
theorem cloneH_ext : ∀ (f : Nat) (h : Heap) (v : HVal),
    ∃ d, (cloneH f h v).2 = h ++ d := by
  intro f
  induction f with
  | zero => intro h v; exact ⟨[], by simp [cloneH]⟩
  | succ f ih =>
    intro h v
    cases v with
    | ref a =>
      obtain ⟨d, hd⟩ := cloneFold_ext f ih (heapGet h a) [] h
      refine ⟨d ++ [((heapGet h a).foldl (fun acc kv =>
        let rv := cloneH f acc.2 kv.2
        (acc.1 ++ [(kv.1, rv.1)], rv.2)) ([], h)).1], ?_⟩
      show ((heapGet h a).foldl (fun acc kv =>
        let rv := cloneH f acc.2 kv.2
        (acc.1 ++ [(kv.1, rv.1)], rv.2)) ([], h)).2 ++
          [((heapGet h a).foldl (fun acc kv =>
            let rv := cloneH f acc.2 kv.2
            (acc.1 ++ [(kv.1, rv.1)], rv.2)) ([], h)).1] = _
      rw [hd, List.append_assoc]
    | hUndef => exact ⟨[], by simp [cloneH]⟩
    | hNull => exact ⟨[], by simp [cloneH]⟩
    | hBool b => exact ⟨[], by simp [cloneH]⟩
    | hNum n => exact ⟨[], by simp [cloneH]⟩
    | hStr s => exact ⟨[], by simp [cloneH]⟩

/-- When `structuredClone` returns a reference, it is a fresh address. -/
theorem cloneH_ref_fresh : ∀ (f : Nat) (h : Heap) (v : HVal) (b : Nat),
    (cloneH f h v).1 = HVal.ref b → h.length ≤ b := by
  intro f h v b
  cases f with
  | zero => intro hr; exact absurd hr (by simp [cloneH])
  | succ f =>
    cases v with
    | ref a =>
      intro hr
      obtain ⟨d, hd⟩ := cloneFold_ext f (cloneH_ext f) (heapGet h a) [] h
      have hb : b = ((heapGet h a).foldl (fun acc kv =>
        let rv := cloneH f acc.2 kv.2
        (acc.1 ++ [(kv.1, rv.1)], rv.2)) ([], h)).2.length :=
        (HVal.ref.inj hr).symm
      rw [hb, hd]
      simp
    | hUndef => intro hr; exact absurd hr (by simp [cloneH])
    | hNull => intro hr; exact absurd hr (by simp [cloneH])
    | hBool bb => intro hr; exact absurd hr (by simp [cloneH])
    | hNum n => intro hr; exact absurd hr (by simp [cloneH])
    | hStr s => intro hr; exact absurd hr (by simp [cloneH])

/-- `getBranch` only appends to the heap. -/
theorem getBranchH_ext (f : Nat) (h : Heap) (path : List String) :
    ∃ d, (getBranchH f h path).2 = h ++ d := by
  cases path with
  | nil => exact cloneH_ext f h (.ref 0)
  | cons p ps =>
    show ∃ d, (match getNestedH h (.ref 0) (p :: ps) with
      | .hUndef => ((HVal.ref h.length), h ++ [[]])
      | .ref a => cloneH f h (.ref a)
      | other => (other, h)).2 = h ++ d
    cases getNestedH h (.ref 0) (p :: ps) with
    | hUndef => exact ⟨[[]], rfl⟩
    | ref a => exact cloneH_ext f h (.ref a)
    | hNull => exact ⟨[], by simp⟩
    | hBool b => exact ⟨[], by simp⟩
    | hNum n => exact ⟨[], by simp⟩
    | hStr s => exact ⟨[], by simp⟩

/-- When `getBranch` returns a reference, it is a fresh address (the deep
copy or the fresh `{}`), never a reference into the store's own graph. -/
theorem getBranchH_ref_fresh (f : Nat) (h : Heap) (path : List String)
    (b : Nat) (hr : (getBranchH f h path).1 = HVal.ref b) :
    h.length ≤ b := by
  cases path with
  | nil => exact cloneH_ref_fresh f h (.ref 0) b hr
  | cons p ps =>
    have hr' : (match getNestedH h (.ref 0) (p :: ps) with
      | .hUndef => ((HVal.ref h.length), h ++ [[]])
      | .ref a => cloneH f h (.ref a)
      | other => (other, h)).1 = HVal.ref b := hr
    cases hb : getNestedH h (.ref 0) (p :: ps) with
    | hUndef =>
      rw [hb] at hr'
      have : HVal.ref h.length = HVal.ref b := hr'
      rw [← HVal.ref.inj this]
    | ref a =>
      rw [hb] at hr'
      exact cloneH_ref_fresh f h (.ref a) b hr'
    | hNull => rw [hb] at hr'; exact absurd hr' (by simp)
    | hBool bb => rw [hb] at hr'; exact absurd hr' (by simp)
    | hNum n => rw [hb] at hr'; exact absurd hr' (by simp)
    | hStr s => rw [hb] at hr'; exact absurd hr' (by simp)

/-- Readback only depends on the heap entries reachable below `n` when all
references stay below `n`. -/
theorem readback_agree : ∀ (g : Nat) (h₁ h₂ : Heap) (n : Nat),
    (∀ i, i < n → heapGet h₁ i = heapGet h₂ i) →
    (∀ i, i < n → ∀ kv ∈ heapGet h₁ i, ∀ b, kv.2 = HVal.ref b → b < n) →
    ∀ v, (∀ b, v = HVal.ref b → b < n) →
    readback g h₁ v = readback g h₂ v := by
  intro g
  induction g with
  | zero => intro h₁ h₂ n _ _ v _; cases v <;> rfl
  | succ g ih =>
    intro h₁ h₂ n heq hwf v hv
    cases v with
    | ref a =>
      have ha : a < n := hv a rfl
      show Value.vObj ((heapGet h₁ a).map
          (fun kv => (kv.1, readback g h₁ kv.2))) =
        Value.vObj ((heapGet h₂ a).map
          (fun kv => (kv.1, readback g h₂ kv.2)))
      rw [← heq a ha]
      congr 1
      apply List.map_congr_left
      intro kv hkv
      have hsub := hwf a ha kv hkv
      rw [ih h₁ h₂ n heq hwf kv.2 hsub]
    | hUndef => rfl
    | hNull => rfl
    | hBool b => rfl
    | hNum m => rfl
    | hStr s => rfl

theorem wfHeapB_spec {h : Heap} (hw : wfHeapB h = true) :
    ∀ i, i < h.length → ∀ kv ∈ heapGet h i, ∀ b, kv.2 = HVal.ref b →
    b < h.length := by
  intro i hi kv hkv b hb
  simp only [wfHeapB, List.all_eq_true] at hw
  have hmem : heapGet h i ∈ h := by
    show h.getD i [] ∈ h
    rw [List.getD_eq_getElem _ _ hi]
    exact List.getElem_mem hi
  have := hw (heapGet h i) hmem kv hkv
  rw [hb] at this
  simpa [refBelow] using this

/-- C5 counterexample: `get` does NOT return a deep copy — it returns the
stored reference itself (there is no `structuredClone` in the source's
`get`), so aliasing survives the call.  Over the heap
`{root@0 = {a: ref 1}, 1 = {b: 1}}` (the store `{a: {b: 1}}`),
`get("a")` returns the internal address `1`; a client writing
`returned.b = 2` through that reference changes what the store itself
reads back. -/
theorem c5_get_alias_counterexample :
    wfHeapB [[("a", HVal.ref 1)], [("b", HVal.hNum 1)]] = true ∧
    coreGetH [[("a", HVal.ref 1)], [("b", HVal.hNum 1)]] ["a"] =
      HVal.ref 1 ∧
    (1 : Nat) <
      ([[("a", HVal.ref 1)], [("b", HVal.hNum 1)]] : Heap).length ∧
    readback 3 [[("a", HVal.ref 1)], [("b", HVal.hNum 1)]] (.ref 0) =
      Value.vObj [("a", Value.vObj [("b", Value.vNum 1)])] ∧
    readback 3 (writeField [[("a", HVal.ref 1)], [("b", HVal.hNum 1)]]
        1 "b" (.hNum 2)) (.ref 0) =
      Value.vObj [("a", Value.vObj [("b", Value.vNum 2)])] :=
  ⟨rfl, rfl, by decide, rfl, rfl⟩

/-- C5 (amended): `getBranch` (and `export`, which delegates to it) really
does return a deep copy: every reference it returns is a freshly allocated
address outside the store's graph, and a client field-write at any such
fresh address (any address at or beyond the original heap length, in
particular anywhere inside the returned copy) leaves the store's
observable readback unchanged.  `get`, by contrast, returns the stored
subtree by reference and mutations through it do alter the store (see the
counterexample). -/
theorem c5_getBranch_deep_copies (h : Heap) (path : List String)
    (f g a' : Nat) (k : String) (v : HVal)
    (hwf : wfHeapB h = true) (hroot : 0 < h.length)
    (ha : h.length ≤ a') :
    readback g (writeField (getBranchH f h path).2 a' k v) (.ref 0) =
      readback g h (.ref 0) ∧
    (∀ b, (getBranchH f h path).1 = HVal.ref b → h.length ≤ b) := by
  constructor
  · obtain ⟨d, hd⟩ := getBranchH_ext f h path
    have heq : ∀ i, i < h.length →
        heapGet h i =
          heapGet (writeField (getBranchH f h path).2 a' k v) i := by
      intro i hi
      rw [hd]
      show h.getD i [] = ((h ++ d).set a'
        (hObjSet (heapGet (h ++ d) a') k v)).getD i []
      rw [show ((h ++ d).set a'
          (hObjSet (heapGet (h ++ d) a') k v)).getD i [] =
        (h ++ d).getD i [] from by
          simp [List.getD,
            List.getElem?_set_ne (by omega : a' ≠ i)]]
      rw [List.getD_append _ _ _ _ hi]
    have := readback_agree g h
      (writeField (getBranchH f h path).2 a' k v) h.length heq
      (wfHeapB_spec hwf) (.ref 0)
      (fun b hb => by rw [← HVal.ref.inj hb]; exact hroot)
    exact this.symm
  · intro b hb
    exact getBranchH_ref_fresh f h path b hb

/-- C5 witness: concrete instance of the deep-copy frame property over the
store `{a: {b: 1}}`: writing through the clone `getBranch("a")` allocates
does not change the store's readback. -/
theorem c5_getBranch_deep_copies_witness :
    readback 5 (writeField
      (getBranchH 5 [[("a", HVal.ref 1)], [("b", HVal.hNum 1)]]
        ["a"]).2 2 "b" (.hNum 99)) (.ref 0) =
      readback 5 [[("a", HVal.ref 1)], [("b", HVal.hNum 1)]] (.ref 0) ∧
    (∀ b, (getBranchH 5 [[("a", HVal.ref 1)], [("b", HVal.hNum 1)]]
      ["a"]).1 = HVal.ref b → 2 ≤ b) := by
  have h := c5_getBranch_deep_copies
    [[("a", HVal.ref 1)], [("b", HVal.hNum 1)]] ["a"] 5 5 2 "b"
    (.hNum 99) (by decide) (by decide) (by decide)
  exact ⟨h.1, fun b hb => h.2 b hb⟩

/-- C10 witness: deleting `user.name` notifies the `user.*` subscriber
with `(undefined, "John", ["user","name"])`. -/
theorem c10_delete_notifies_witness :
    (⟨7, Value.vUndef,
      getNestedValue (Value.vObj [("user",
        Value.vObj [("name", Value.vStr "John")])]) ["user", "name"],
      ["user", "name"]⟩ : Call) ∈
      (odelete ⟨Value.vObj [("user",
          Value.vObj [("name", Value.vStr "John")])],
        [("user.*", [7])]⟩ ["user", "name"] defaultOpts).2.2 :=
  c10_delete_notifies
    (Value.vObj [("user", Value.vObj [("name", Value.vStr "John")])])
    [("user.*", [7])] ["user", "name"] "user.*" [7] 7
    (by decide) (by decide) (by decide) (by decide) (by decide)

end TupleStore
